import Mathlib

/-!
Verification of the tic-tac-toe TD-learning program (tictactoe_td.py).

The board is the Python 3-tuple of 3-tuples of cells; a cell is None, 'x'
or 'o', embedded as an Option over a two-element mark type.  Python floats
are embedded as rationals, exceptions as Except, and the unbounded while
loops (the BFS of make_states and the game loop of play) as fuel
recursion returning Option/none when the fuel runs out.  Randomness
(the exploration coin flip, random.choice and random.shuffle) is passed
to the agent as explicit oracle data.
-/

namespace TicTacToe

/-- The two marks 'x' and 'o'. -/
inductive Player where
  | X : Player
  | O : Player
deriving DecidableEq, Repr

instance : Fintype Player :=
  ⟨⟨{Player.X, Player.O}, by decide⟩, by intro p; cases p <;> decide⟩

/-- A cell of the board: None, 'x' or 'o'. -/
abbrev Cell := Option Player

/-- A row of the board: a Python 3-tuple. -/
abbrev BRow := Cell × Cell × Cell

instance instDecEqCell : DecidableEq Cell :=
  fun a b => Option.instDecidableEq a b

instance instDecEqBRow : DecidableEq BRow :=
  fun a b => instDecidableEqProd a b

/-- A board: the Python 3-tuple of 3-tuples. -/
abbrev Board := BRow × BRow × BRow

instance instDecEqBoard : DecidableEq Board :=
  fun a b => instDecidableEqProd a b

/-- EMPTY = tuple((None,)*3 for _ in range(3)). -/
def EMPTY : Board := ((none, none, none), (none, none, none), (none, none, none))

/-- The six classification constants of the program. -/
inductive GameState where
  | ILLEGAL | XWIN | OWIN | DRAW | XTURN | OTURN
deriving DecidableEq, Repr

/-- Number of marks of a player in one cell (one summand of count_pieces). -/
def cellCount (c : Cell) (p : Player) : Nat :=
  if c = some p then 1 else 0

/-- Number of marks of a player in one row (inner loop of count_pieces). -/
def rowCount (r : BRow) (p : Player) : Nat :=
  cellCount r.1 p + cellCount r.2.1 p + cellCount r.2.2 p

/-- count_pieces: the number of X's and O's on the board. -/
def count_pieces (board : Board) : Nat × Nat :=
  (rowCount board.1 Player.X + rowCount board.2.1 Player.X + rowCount board.2.2 Player.X,
   rowCount board.1 Player.O + rowCount board.2.1 Player.O + rowCount board.2.2 Player.O)

/-- board[r][c]; cells outside the 3x3 grid read as empty (the program never
reads them: all indices used are 0, 1 or 2). -/
def cell (b : Board) (r c : Nat) : Cell :=
  match r, c with
  | 0, 0 => b.1.1
  | 0, 1 => b.1.2.1
  | 0, 2 => b.1.2.2
  | 1, 0 => b.2.1.1
  | 1, 1 => b.2.1.2.1
  | 1, 2 => b.2.1.2.2
  | 2, 0 => b.2.2.1
  | 2, 1 => b.2.2.2.1
  | 2, 2 => b.2.2.2.2
  | _, _ => none

/-- The eight winning lines checked by has_win, in source order. -/
def lines : List ((Nat × Nat) × (Nat × Nat) × (Nat × Nat)) :=
  [ ((0, 0), (0, 1), (0, 2)),
    ((1, 0), (1, 1), (1, 2)),
    ((2, 0), (2, 1), (2, 2)),
    ((0, 0), (1, 0), (2, 0)),
    ((0, 1), (1, 1), (2, 1)),
    ((0, 2), (1, 2), (2, 2)),
    ((0, 0), (1, 1), (2, 2)),
    ((2, 0), (1, 1), (0, 2)) ]

/-- has_win: whether the given player has a completed line. -/
def has_win (board : Board) (player : Player) : Bool :=
  lines.any fun l =>
    match l with
    | ((ar, ac), (br, bc), (cr, cc)) =>
      decide (cell board ar ac = some player) &&
      decide (cell board br bc = some player) &&
      decide (cell board cr cc = some player)

/-- classify_board.  The dimension check of the source (raise ValueError on a
misshaped board) is vacuous here: the Board type only contains 3x3 grids,
which the spec singles out as the intended representation. -/
def classify_board (board : Board) : GameState :=
  let x := (count_pieces board).1
  let o := (count_pieces board).2
  if ((x : Int) - (o : Int)).natAbs > 1 then GameState.ILLEGAL
  else
    let xwin := has_win board Player.X
    let owin := has_win board Player.O
    if xwin && owin then GameState.ILLEGAL
    else if xwin then GameState.XWIN
    else if owin then GameState.OWIN
    else if x + o = 9 then GameState.DRAW
    else if x > o then GameState.OTURN
    else GameState.XTURN

/-- _move (local to get_children): the board with the cell (r, c) replaced by
the given piece, all other cells unchanged. -/
def _move (b : Board) (r c : Nat) (piece : Player) : Board :=
  match r, c with
  | 0, 0 => ((some piece, b.1.2.1, b.1.2.2), b.2.1, b.2.2)
  | 0, 1 => ((b.1.1, some piece, b.1.2.2), b.2.1, b.2.2)
  | 0, 2 => ((b.1.1, b.1.2.1, some piece), b.2.1, b.2.2)
  | 1, 0 => (b.1, (some piece, b.2.1.2.1, b.2.1.2.2), b.2.2)
  | 1, 1 => (b.1, (b.2.1.1, some piece, b.2.1.2.2), b.2.2)
  | 1, 2 => (b.1, (b.2.1.1, b.2.1.2.1, some piece), b.2.2)
  | 2, 0 => (b.1, b.2.1, (some piece, b.2.2.2.1, b.2.2.2.2))
  | 2, 1 => (b.1, b.2.1, (b.2.2.1, some piece, b.2.2.2.2))
  | 2, 2 => (b.1, b.2.1, (b.2.2.1, b.2.2.2.1, some piece))
  | _, _ => b

/-- _attempt_place: one successor per empty cell, row-major order. -/
def _attempt_place (b : Board) (piece : Player) : List Board :=
  (List.range 3).flatMap fun i =>
    (List.range 3).filterMap fun j =>
      if cell b i j = none then some (_move b i j piece) else none

/-- get_children: the list of valid successor boards. -/
def get_children (board : Board) : List Board :=
  match classify_board board with
  | GameState.XTURN => _attempt_place board Player.X
  | GameState.OTURN => _attempt_place board Player.O
  | _ => []

/-- The per-board value dictionary { X_TOK: ..., O_TOK: ... } of make_states. -/
structure Score where
  x : ℚ
  o : ℚ
deriving DecidableEq, Repr

/-- score[turn]. -/
def Score.get (s : Score) (p : Player) : ℚ :=
  match p with
  | Player.X => s.x
  | Player.O => s.o

/-- score[turn] = v. -/
def Score.set (s : Score) (p : Player) (v : ℚ) : Score :=
  match p with
  | Player.X => { s with x := v }
  | Player.O => { s with o := v }

/-- The initial score assigned to a popped board in make_states, by its
classification. -/
def init_score (st : GameState) : Score :=
  match st with
  | GameState.XWIN => ⟨1, 0⟩
  | GameState.OWIN => ⟨0, 1⟩
  | GameState.DRAW => ⟨0, 0⟩
  | _ => ⟨1/2, 1/2⟩

/-- Python dict lookup d[k] on an insertion-ordered association list,
returning none where Python raises KeyError. -/
def dict_get (w : List (Board × Score)) (k : Board) : Option Score :=
  match w with
  | [] => none
  | (k', v) :: rest => if k' = k then some v else dict_get rest k

/-- Python dict assignment d[k] = v: overwrite in place if the key is
present, else append (insertion order preserved). -/
def dict_set (w : List (Board × Score)) (k : Board) (v : Score) : List (Board × Score) :=
  match w with
  | [] => [(k, v)]
  | (k', v') :: rest => if k' = k then (k', v) :: rest else (k', v') :: dict_set rest k v

/-- The keys of a dictionary, in insertion order. -/
def dict_keys (w : List (Board × Score)) : List Board :=
  w.map Prod.fst

/-- The inner loop of make_states over the neighbors of the popped board:
each neighbor not yet seen is added to the seen set and appended to the
queue. -/
def scan_neighbors (neighbors q seen : List Board) : List Board × List Board :=
  match neighbors with
  | [] => (q, seen)
  | n :: rest =>
    if n ∈ seen then scan_neighbors rest q seen
    else scan_neighbors rest (q ++ [n]) (seen ++ [n])

/-- The while loop of make_states, with explicit fuel (the Python loop is
unbounded; none is returned only if the fuel runs out before the queue
empties). -/
def make_states_aux (fuel : Nat) (q seen : List Board) (value_map : List (Board × Score)) :
    Option (List (Board × Score)) :=
  match fuel with
  | 0 => if q.isEmpty then some value_map else none
  | fuel + 1 =>
    match q with
    | [] => some value_map
    | top :: q' =>
      let score := init_score (classify_board top)
      let value_map' := dict_set value_map top score
      let qs := scan_neighbors (get_children top) q' seen
      make_states_aux fuel qs.1 qs.2 value_map'

/-- make_states: BFS from the empty board; 20000 rounds of fuel are enough,
since the loop pops one of at most 19683 distinct boards per round. -/
def make_states : Option (List (Board × Score)) :=
  make_states_aux 20000 [EMPTY] [EMPTY] []

/-- Boards reachable from the empty board via the successor generator. -/
inductive Reachable : Board → Prop where
  | empty : Reachable EMPTY
  | step {b c : Board} : Reachable b → c ∈ get_children b → Reachable c

/-- A board that classify_board does not reject: piece counts differing by
at most one and no simultaneous win for both players. -/
def legal (b : Board) : Prop :=
  (((count_pieces b).1 : Int) - ((count_pieces b).2 : Int)).natAbs ≤ 1 ∧
    ¬(has_win b Player.X = true ∧ has_win b Player.O = true)

/-! ### A base-3 code for boards and a per-board reachability certificate

Rather than running the BFS inside the kernel, the 5478 count is obtained
from a closed characterization of the reachable boards (piece counts and
win/parity constraints), checked by the kernel once per board code, with
an explicit predecessor certificate that drives the proof that every such
board is reachable. -/

/-- The base-3 digit of a cell. -/
def cellCode (c : Cell) : Nat :=
  match c with
  | none => 0
  | some Player.X => 1
  | some Player.O => 2

/-- An injective base-3 code of a board (row-major digits). -/
def encode (b : Board) : Nat :=
  cellCode b.1.1 + 3 * (cellCode b.1.2.1 + 3 * (cellCode b.1.2.2 +
    3 * (cellCode b.2.1.1 + 3 * (cellCode b.2.1.2.1 + 3 * (cellCode b.2.1.2.2 +
    3 * (cellCode b.2.2.1 + 3 * (cellCode b.2.2.2.1 + 3 * cellCode b.2.2.2.2)))))))

/-- The cell with the given base-3 digit. -/
def decodeCell (d : Nat) : Cell :=
  match d with
  | 0 => none
  | 1 => some Player.X
  | _ => some Player.O

/-- The board with the given base-3 code (left inverse of encode on codes
below 19683, established by the kernel check below). -/
def decode (n : Nat) : Board :=
  ((decodeCell (n % 3), decodeCell (n / 3 % 3), decodeCell (n / 9 % 3)),
   (decodeCell (n / 27 % 3), decodeCell (n / 81 % 3), decodeCell (n / 243 % 3)),
   (decodeCell (n / 729 % 3), decodeCell (n / 2187 % 3), decodeCell (n / 6561 % 3)))

/-- Number of X marks in one cell (fast, match-based; agreement with
cellCount is proved below). -/
def cellX (c : Cell) : Nat :=
  match c with
  | some Player.X => 1
  | _ => 0

/-- Number of O marks in one cell. -/
def cellO (c : Cell) : Nat :=
  match c with
  | some Player.O => 1
  | _ => 0

/-- Number of X marks on the board (agrees with count_pieces). -/
def xCount (b : Board) : Nat :=
  cellX b.1.1 + cellX b.1.2.1 + cellX b.1.2.2 + cellX b.2.1.1 + cellX b.2.1.2.1 +
    cellX b.2.1.2.2 + cellX b.2.2.1 + cellX b.2.2.2.1 + cellX b.2.2.2.2

/-- Number of O marks on the board (agrees with count_pieces). -/
def oCount (b : Board) : Nat :=
  cellO b.1.1 + cellO b.1.2.1 + cellO b.1.2.2 + cellO b.2.1.1 + cellO b.2.1.2.1 +
    cellO b.2.1.2.2 + cellO b.2.2.1 + cellO b.2.2.2.1 + cellO b.2.2.2.2

/-- Whether a cell holds the given mark (match-based). -/
def cellIs (c : Cell) (p : Player) : Bool :=
  match c, p with
  | some Player.X, Player.X => true
  | some Player.O, Player.O => true
  | _, _ => false

/-- Cell equality (match-based). -/
def cellBeq (a b : Cell) : Bool :=
  match a, b with
  | none, none => true
  | some Player.X, some Player.X => true
  | some Player.O, some Player.O => true
  | _, _ => false

/-- Row equality (match-based). -/
def rowBeq (a b : BRow) : Bool :=
  cellBeq a.1 b.1 && cellBeq a.2.1 b.2.1 && cellBeq a.2.2 b.2.2

/-- Board equality (match-based). -/
def boardBeq (a b : Board) : Bool :=
  rowBeq a.1 b.1 && rowBeq a.2.1 b.2.1 && rowBeq a.2.2 b.2.2

/-- The eight-line win test, written out over the tuple components
(agrees with has_win). -/
def winF (b : Board) (p : Player) : Bool :=
  cellIs b.1.1 p && cellIs b.1.2.1 p && cellIs b.1.2.2 p ||
  (cellIs b.2.1.1 p && cellIs b.2.1.2.1 p && cellIs b.2.1.2.2 p ||
  (cellIs b.2.2.1 p && cellIs b.2.2.2.1 p && cellIs b.2.2.2.2 p ||
  (cellIs b.1.1 p && cellIs b.2.1.1 p && cellIs b.2.2.1 p ||
  (cellIs b.1.2.1 p && cellIs b.2.1.2.1 p && cellIs b.2.2.2.1 p ||
  (cellIs b.1.2.2 p && cellIs b.2.1.2.2 p && cellIs b.2.2.2.2 p ||
  (cellIs b.1.1 p && cellIs b.2.1.2.1 p && cellIs b.2.2.2.2 p ||
  cellIs b.2.2.1 p && cellIs b.2.1.2.1 p && cellIs b.1.2.2 p))))))

/-- The closed characterization of the boards reachable from the empty
board: the move counts alternate starting with X, and a completed line
belongs to the player who just moved. -/
def reachSpec (b : Board) : Bool :=
  let x := xCount b
  let o := oCount b
  let xw := winF b Player.X
  let ow := winF b Player.O
  (Nat.ble o x && Nat.ble x (o + 1)) && !(xw && ow) &&
    (!xw || Nat.beq x (o + 1)) && (!ow || Nat.beq x o)

/-- The board with the cell (r, c) emptied (proof device used by the
predecessor certificate). -/
def clear (b : Board) (r c : Nat) : Board :=
  match r, c with
  | 0, 0 => ((none, b.1.2.1, b.1.2.2), b.2.1, b.2.2)
  | 0, 1 => ((b.1.1, none, b.1.2.2), b.2.1, b.2.2)
  | 0, 2 => ((b.1.1, b.1.2.1, none), b.2.1, b.2.2)
  | 1, 0 => (b.1, (none, b.2.1.2.1, b.2.1.2.2), b.2.2)
  | 1, 1 => (b.1, (b.2.1.1, none, b.2.1.2.2), b.2.2)
  | 1, 2 => (b.1, (b.2.1.1, b.2.1.2.1, none), b.2.2)
  | 2, 0 => (b.1, b.2.1, (none, b.2.2.2.1, b.2.2.2.2))
  | 2, 1 => (b.1, b.2.1, (b.2.2.1, none, b.2.2.2.2))
  | 2, 2 => (b.1, b.2.1, (b.2.2.1, b.2.2.2.1, none))
  | _, _ => b

/-- The first cell of the last mover whose removal destroys every
completed line of that mover: clearing it yields the predecessor named by
the certificate. -/
def findPred (b : Board) (p : Player) : Option (Nat × Nat) :=
  ([(0, 0), (0, 1), (0, 2), (1, 0), (1, 1), (1, 2),
    (2, 0), (2, 1), (2, 2)] : List (Nat × Nat)).find? fun ij =>
    cellIs (cell b ij.1 ij.2) p && !(winF (clear b ij.1 ij.2) p)

/-- The predecessor certificate for one board: a nonempty reachSpec board
has a cell of the last mover whose removal destroys all of that mover's
completed lines.  (That the cleared board is again a reachSpec board one
move below, with the turn handed to the mover, is derived abstractly in
the lemmas below.) -/
def certOK (b : Board) : Bool :=
  if xCount b + oCount b = 0 then boardBeq b EMPTY
  else
    match findPred b (if xCount b = oCount b + 1 then Player.X else Player.O) with
    | none => false
    | some _ => true

/-- The check for one code: the decoded board carries a predecessor
certificate when it satisfies reachSpec.  none signals a failed check,
some r reports whether the board satisfies reachSpec. -/
def checkCode (k : Nat) : Option Bool :=
  let b := decode k
  if reachSpec b then
    if certOK b then some true else none
  else some false

/-- One pass over the codes lo, lo+1, ..., lo+n-1 (processed top down),
verifying the per-code check and counting the boards that satisfy
reachSpec.  Written over Nat.rec with a forced accumulator so that the
kernel can evaluate a whole pass; the range is split into chunks below to
bound the kernel's memory use. -/
def scanFrom : Nat → Nat → Nat → Option Nat :=
  fun lo => Nat.rec (motive := fun _ => Nat → Option Nat)
    (fun acc => some acc)
    (fun k ih acc =>
      match checkCode (lo + k) with
      | none => none
      | some false => ih acc
      | some true =>
        match acc + 1 with
        | 0 => none
        | a + 1 => ih (a + 1))

/-- The neighbors the scan of one popped board newly discovers, in
discovery order (specification device used to reason about both scans). -/
def newOf (neighbors seen : List Board) : List Board :=
  match neighbors with
  | [] => []
  | n :: rest =>
    if n ∈ seen then newOf rest seen
    else n :: newOf rest (seen ++ [n])

/-- The loop invariant of the make_states BFS: the seen list is the keys
of the value map followed by the queue, without duplicates; everything
seen is reachable; the children of every processed key have been seen;
the empty board has been seen; and every stored score is the initial
score of its board's classification. -/
def BfsInv (q seen : List Board) (vm : List (Board × Score)) : Prop :=
  seen = dict_keys vm ++ q ∧
  seen.Nodup ∧
  (∀ b ∈ seen, Reachable b) ∧
  (∀ b ∈ dict_keys vm, ∀ c ∈ get_children b, c ∈ seen) ∧
  EMPTY ∈ seen ∧
  (∀ p ∈ vm, p.2 = init_score (classify_board p.1))

/-! ### The game runner -/

/-- play: the single-game loop, with the two agents as state-passing move
functions (each consumes the MOVE signal payload (board, moves) and
returns the chosen board plus its next internal state).  The Python loop
is unbounded; fuel counts loop rounds and none is returned only if it
runs out.  The pretty-printing calls are I/O collaborators and have no
counterpart. -/
def play {sx so : Type} (xplayer : sx → Board → List Board → Board × sx)
    (oplayer : so → Board → List Board → Board × so)
    (fuel : Nat) (board : Board) (xst : sx) (ost : so) : Option GameState :=
  match fuel with
  | 0 =>
    let state := classify_board board
    if state = GameState.XTURN ∨ state = GameState.OTURN then none else some state
  | fuel + 1 =>
    let state := classify_board board
    if state = GameState.XTURN then
      let moves := get_children board
      let r := xplayer xst board moves
      play xplayer oplayer fuel r.1 r.2 ost
    else if state = GameState.OTURN then
      let moves := get_children board
      let r := oplayer ost board moves
      play xplayer oplayer fuel r.1 xst r.2
    else some state

/-! ### The TD agent (rl_player_factory) -/

/-- The three signals an agent accepts. -/
inductive Action where
  | NEW_GAME : Action
  | END_GAME (turn : Player) (outcome : ℚ) : Action
  | MOVE (board : Board) (moves : List Board) : Action

/-- The random draws one MOVE signal consumes: the outcome of the
exploration coin flip (random() < explore_rate), the index drawn by
random.choice(moves), and the result of random.shuffle(moves). -/
structure Rand where
  exploratory : Bool
  pick : Nat
  shuffled : List Board

/-- The factory parameters explore_rate and decay. -/
structure Config where
  explore_rate : ℚ
  decay : ℚ

/-- The mutable closure state of one agent: weights, alpha, last_move. -/
structure AgentState where
  weights : List (Board × Score)
  alpha : ℚ
  last_move : Option Board
deriving DecidableEq

/-- backup: the TD(0) update of weights[last_move][turn] toward the
outcome, followed by alpha *= decay.  A missing last_move (None) or a
last_move outside the table makes the lookup weights[last_move] raise
KeyError before anything is written. -/
def backup (st : AgentState) (decay : ℚ) (turn : Player) (outcome : ℚ) :
    Except String AgentState :=
  match st.last_move with
  | none => Except.error "KeyError"
  | some lm =>
    match dict_get st.weights lm with
    | none => Except.error "KeyError"
    | some score =>
      let prev_score := score.get turn
      let adjusted_prev_score := prev_score + st.alpha * (outcome - prev_score)
      Except.ok { st with
        weights := dict_set st.weights lm (score.set turn adjusted_prev_score),
        alpha := st.alpha * decay }

/-- turn = X_TOK if state == XTURN_STATE else O_TOK. -/
def greedy_turn (board : Board) : Player :=
  if classify_board board = GameState.XTURN then Player.X else Player.O

/-- The greedy scan of the (shuffled) moves: starting from move = None and
score = -1, take each candidate whose table value for the mover strictly
beats the best so far.  A candidate outside the table raises KeyError. -/
def pick_greedy (w : List (Board × Score)) (turn : Player) :
    List Board → Option Board → ℚ → Except String (Option Board × ℚ)
  | [], move, score => Except.ok (move, score)
  | candidate :: rest, move, score =>
    match dict_get w candidate with
    | none => Except.error "KeyError"
    | some s =>
      let our_score := s.get turn
      if our_score > score then pick_greedy w turn rest (some candidate) our_score
      else pick_greedy w turn rest move score

/-- rl_player: one signal dispatch of the TD agent.  Python returns the
chosen move on MOVE and (implicitly) None on the other signals; raised
exceptions become Except.error. -/
def rl_player (cfg : Config) (st : AgentState) (action : Action) (rnd : Rand) :
    Except String (Option Board × AgentState) :=
  match action with
  | Action.NEW_GAME => Except.ok (none, { st with last_move := none })
  | Action.END_GAME turn outcome =>
    match backup st cfg.decay turn outcome with
    | Except.error e => Except.error e
    | Except.ok st' => Except.ok (none, st')
  | Action.MOVE board moves =>
    if rnd.exploratory then
      match moves.get? rnd.pick with
      | none => Except.error "IndexError"
      | some move => Except.ok (some move, { st with last_move := some move })
    else
      let turn := greedy_turn board
      match pick_greedy st.weights turn rnd.shuffled none (-1) with
      | Except.error e => Except.error e
      | Except.ok (move, _) =>
        match st.last_move with
        | none => Except.ok (move, { st with last_move := move })
        | some _ =>
          match move with
          | none => Except.error "KeyError"
          | some mv =>
            match dict_get st.weights mv with
            | none => Except.error "KeyError"
            | some cur =>
              match backup st cfg.decay turn (cur.get turn) with
              | Except.error e => Except.error e
              | Except.ok st' => Except.ok (move, { st' with last_move := move })

/-- Feeding the agent a sequence of signals, stopping at the first raised
exception. -/
def run (cfg : Config) (st : AgentState) : List (Action × Rand) → Except String AgentState
  | [] => Except.ok st
  | (a, r) :: rest =>
    match rl_player cfg st a r with
    | Except.error e => Except.error e
    | Except.ok (_, st') => run cfg st' rest

/-- The number of TD backups a successful run of the given signals
performs (0 for a signal that raises: the run stops there). -/
def run_backs (cfg : Config) (st : AgentState) : List (Action × Rand) → Nat
  | [] => 0
  | (a, r) :: rest =>
    match rl_player cfg st a r with
    | Except.error _ => 0
    | Except.ok (_, st') =>
      (match a with
       | Action.NEW_GAME => 0
       | Action.END_GAME _ _ => 1
       | Action.MOVE _ _ =>
         if r.exploratory then 0
         else if st.last_move.isSome then 1 else 0) + run_backs cfg st' rest

/-! ## Lemmas about cells, moves and the classifier -/

theorem cell_move_eq (b : Board) (p : Player) (i j : Nat) (hi : i < 3) (hj : j < 3) :
    cell (_move b i j p) i j = some p := by
  interval_cases i <;> interval_cases j <;> rfl

theorem cell_move_ne (b : Board) (p : Player) (i j r s : Nat) (hi : i < 3) (hj : j < 3)
    (hr : r < 3) (hs : s < 3) (h : ¬(r = i ∧ s = j)) :
    cell (_move b i j p) r s = cell b r s := by
  interval_cases i <;> interval_cases j <;> interval_cases r <;> interval_cases s <;>
    first
      | rfl
      | exact absurd ⟨rfl, rfl⟩ h

theorem count_pieces_move_X (b : Board) (i j : Nat) (hi : i < 3) (hj : j < 3)
    (h : cell b i j = none) :
    count_pieces (_move b i j Player.X) = ((count_pieces b).1 + 1, (count_pieces b).2) := by
  interval_cases i <;> interval_cases j <;>
    (simp only [cell] at h
     simp [count_pieces, rowCount, cellCount, _move, h, Prod.ext_iff]
     try omega)

theorem count_pieces_move_O (b : Board) (i j : Nat) (hi : i < 3) (hj : j < 3)
    (h : cell b i j = none) :
    count_pieces (_move b i j Player.O) = ((count_pieces b).1, (count_pieces b).2 + 1) := by
  interval_cases i <;> interval_cases j <;>
    (simp only [cell] at h
     simp [count_pieces, rowCount, cellCount, _move, h, Prod.ext_iff]
     try omega)

theorem has_win_move (b : Board) (p q : Player) (hpq : q ≠ p) (i j : Nat) (hi : i < 3)
    (hj : j < 3) (h : cell b i j = none) :
    has_win (_move b i j p) q = has_win b q := by
  have hpq' : p ≠ q := fun e => hpq e.symm
  interval_cases i <;> interval_cases j <;>
    (simp only [cell] at h
     simp [has_win, lines, _move, cell, h, hpq'])

theorem mem_attempt_place {b : Board} {p : Player} {c : Board} :
    c ∈ _attempt_place b p ↔
      ∃ i, i < 3 ∧ ∃ j, j < 3 ∧ cell b i j = none ∧ c = _move b i j p := by
  constructor
  · intro hmem
    simp only [_attempt_place, List.mem_flatMap, List.mem_filterMap, List.mem_range] at hmem
    obtain ⟨i, hi, j, hj, hc⟩ := hmem
    by_cases he : cell b i j = none
    · rw [if_pos he] at hc
      exact ⟨i, hi, j, hj, he, (Option.some.injEq _ _ ▸ hc).symm⟩
    · rw [if_neg he] at hc
      exact absurd hc (by simp)
  · rintro ⟨i, hi, j, hj, he, rfl⟩
    simp only [_attempt_place, List.mem_flatMap, List.mem_filterMap, List.mem_range]
    exact ⟨i, hi, j, hj, by simp [he]⟩

theorem cellCount_pair_le (c : Cell) : cellCount c Player.X + cellCount c Player.O ≤ 1 := by
  rcases c with _ | p
  · simp [cellCount]
  · rcases p <;> simp [cellCount]

theorem cellCount_pair_of_filled (c : Cell) (h : c ≠ none) :
    cellCount c Player.X + cellCount c Player.O = 1 := by
  rcases c with _ | p
  · exact absurd rfl h
  · rcases p <;> simp [cellCount]

theorem count_pieces_le_nine (b : Board) : (count_pieces b).1 + (count_pieces b).2 ≤ 9 := by
  obtain ⟨⟨a, b1, c⟩, ⟨d, e, f⟩, ⟨g, h, i⟩⟩ := b
  simp only [count_pieces, rowCount]
  have := cellCount_pair_le a
  have := cellCount_pair_le b1
  have := cellCount_pair_le c
  have := cellCount_pair_le d
  have := cellCount_pair_le e
  have := cellCount_pair_le f
  have := cellCount_pair_le g
  have := cellCount_pair_le h
  have := cellCount_pair_le i
  omega

theorem exists_empty_cell (b : Board) (h : (count_pieces b).1 + (count_pieces b).2 < 9) :
    ∃ i, i < 3 ∧ ∃ j, j < 3 ∧ cell b i j = none := by
  by_contra hall
  push_neg at hall
  obtain ⟨⟨a, b1, c⟩, ⟨d, e, f⟩, ⟨g, h2, i⟩⟩ := b
  have h00 := hall 0 (by omega) 0 (by omega)
  have h01 := hall 0 (by omega) 1 (by omega)
  have h02 := hall 0 (by omega) 2 (by omega)
  have h10 := hall 1 (by omega) 0 (by omega)
  have h11 := hall 1 (by omega) 1 (by omega)
  have h12 := hall 1 (by omega) 2 (by omega)
  have h20 := hall 2 (by omega) 0 (by omega)
  have h21 := hall 2 (by omega) 1 (by omega)
  have h22 := hall 2 (by omega) 2 (by omega)
  simp only [cell] at h00 h01 h02 h10 h11 h12 h20 h21 h22
  have e00 := cellCount_pair_of_filled _ h00
  have e01 := cellCount_pair_of_filled _ h01
  have e02 := cellCount_pair_of_filled _ h02
  have e10 := cellCount_pair_of_filled _ h10
  have e11 := cellCount_pair_of_filled _ h11
  have e12 := cellCount_pair_of_filled _ h12
  have e20 := cellCount_pair_of_filled _ h20
  have e21 := cellCount_pair_of_filled _ h21
  have e22 := cellCount_pair_of_filled _ h22
  simp only [count_pieces, rowCount] at h
  omega

/-! ## Inversion lemmas for classify_board -/

theorem classify_xturn_inv {b : Board} (h : classify_board b = GameState.XTURN) :
    (((count_pieces b).1 : Int) - ((count_pieces b).2 : Int)).natAbs ≤ 1 ∧
    has_win b Player.X = false ∧ has_win b Player.O = false ∧
    (count_pieces b).1 + (count_pieces b).2 ≠ 9 ∧
    (count_pieces b).1 ≤ (count_pieces b).2 := by
  unfold classify_board at h
  dsimp only at h
  split_ifs at h <;> simp_all

theorem classify_oturn_inv {b : Board} (h : classify_board b = GameState.OTURN) :
    (((count_pieces b).1 : Int) - ((count_pieces b).2 : Int)).natAbs ≤ 1 ∧
    has_win b Player.X = false ∧ has_win b Player.O = false ∧
    (count_pieces b).1 + (count_pieces b).2 ≠ 9 ∧
    (count_pieces b).2 < (count_pieces b).1 := by
  unfold classify_board at h
  dsimp only at h
  split_ifs at h <;> simp_all

theorem classify_illegal_inv {b : Board} (h : classify_board b = GameState.ILLEGAL) :
    (((count_pieces b).1 : Int) - ((count_pieces b).2 : Int)).natAbs > 1 ∨
      (has_win b Player.X = true ∧ has_win b Player.O = true) := by
  unfold classify_board at h
  dsimp only at h
  split_ifs at h <;> simp_all

theorem classify_of_legal {b : Board} (h : legal b) :
    classify_board b ≠ GameState.ILLEGAL := by
  intro hc
  rcases classify_illegal_inv hc with h1 | h2
  · have := h.1
    omega
  · exact h.2 h2

/-! ## Lemmas about get_children -/

theorem get_children_eq_X {b : Board} (h : classify_board b = GameState.XTURN) :
    get_children b = _attempt_place b Player.X := by
  unfold get_children
  rw [h]

theorem get_children_eq_O {b : Board} (h : classify_board b = GameState.OTURN) :
    get_children b = _attempt_place b Player.O := by
  unfold get_children
  rw [h]

theorem get_children_eq_nil {b : Board} (h1 : classify_board b ≠ GameState.XTURN)
    (h2 : classify_board b ≠ GameState.OTURN) : get_children b = [] := by
  unfold get_children
  rcases hcl : classify_board b <;>
    first
      | rfl
      | exact absurd hcl h1
      | exact absurd hcl h2

theorem mem_get_children {b c : Board} (hc : c ∈ get_children b) :
    ∃ p, ((classify_board b = GameState.XTURN ∧ p = Player.X) ∨
          (classify_board b = GameState.OTURN ∧ p = Player.O)) ∧
      ∃ i, i < 3 ∧ ∃ j, j < 3 ∧ cell b i j = none ∧ c = _move b i j p := by
  by_cases hX : classify_board b = GameState.XTURN
  · rw [get_children_eq_X hX] at hc
    obtain ⟨i, hi, j, hj, he, rfl⟩ := mem_attempt_place.mp hc
    exact ⟨Player.X, Or.inl ⟨hX, rfl⟩, i, hi, j, hj, he, rfl⟩
  · by_cases hO : classify_board b = GameState.OTURN
    · rw [get_children_eq_O hO] at hc
      obtain ⟨i, hi, j, hj, he, rfl⟩ := mem_attempt_place.mp hc
      exact ⟨Player.O, Or.inr ⟨hO, rfl⟩, i, hi, j, hj, he, rfl⟩
    · rw [get_children_eq_nil hX hO] at hc
      exact absurd hc (by simp)

theorem mem_children_count {b c : Board} (hc : c ∈ get_children b) :
    (count_pieces c).1 + (count_pieces c).2 = (count_pieces b).1 + (count_pieces b).2 + 1 := by
  obtain ⟨p, hcase, i, hi, j, hj, he, rfl⟩ := mem_get_children hc
  rcases hcase with ⟨_, rfl⟩ | ⟨_, rfl⟩
  · rw [count_pieces_move_X b i j hi hj he]
    omega
  · rw [count_pieces_move_O b i j hi hj he]
    omega

theorem mem_children_legal {b c : Board} (hc : c ∈ get_children b) : legal c := by
  obtain ⟨p, hcase, i, hi, j, hj, he, rfl⟩ := mem_get_children hc
  rcases hcase with ⟨hcl, rfl⟩ | ⟨hcl, rfl⟩
  · obtain ⟨habs, hxw, how, _, hle⟩ := classify_xturn_inv hcl
    refine ⟨?_, ?_⟩
    · rw [count_pieces_move_X b i j hi hj he]
      omega
    · rintro ⟨_, how'⟩
      rw [has_win_move b Player.X Player.O (by decide) i j hi hj he, how] at how'
      cases how'
  · obtain ⟨habs, hxw, how, _, hlt⟩ := classify_oturn_inv hcl
    refine ⟨?_, ?_⟩
    · rw [count_pieces_move_O b i j hi hj he]
      omega
    · rintro ⟨hxw', _⟩
      rw [has_win_move b Player.O Player.X (by decide) i j hi hj he, hxw] at hxw'
      cases hxw'

theorem reachable_legal {b : Board} (h : Reachable b) : legal b := by
  cases h with
  | empty => exact ⟨by decide, by decide⟩
  | step hb hc => exact mem_children_legal hc

theorem mem_children_reachable {b c : Board} (hb : Reachable b) (hc : c ∈ get_children b) :
    Reachable c :=
  Reachable.step hb hc

theorem get_children_ne_nil_X {b : Board} (h : classify_board b = GameState.XTURN) :
    get_children b ≠ [] := by
  obtain ⟨_, _, _, h9, _⟩ := classify_xturn_inv h
  have hlt : (count_pieces b).1 + (count_pieces b).2 < 9 :=
    lt_of_le_of_ne (count_pieces_le_nine b) h9
  obtain ⟨i, hi, j, hj, he⟩ := exists_empty_cell b hlt
  rw [get_children_eq_X h]
  exact List.ne_nil_of_mem (mem_attempt_place.mpr ⟨i, hi, j, hj, he, rfl⟩)

theorem get_children_ne_nil_O {b : Board} (h : classify_board b = GameState.OTURN) :
    get_children b ≠ [] := by
  obtain ⟨_, _, _, h9, _⟩ := classify_oturn_inv h
  have hlt : (count_pieces b).1 + (count_pieces b).2 < 9 :=
    lt_of_le_of_ne (count_pieces_le_nine b) h9
  obtain ⟨i, hi, j, hj, he⟩ := exists_empty_cell b hlt
  rw [get_children_eq_O h]
  exact List.ne_nil_of_mem (mem_attempt_place.mpr ⟨i, hi, j, hj, he, rfl⟩)

/-! ## Dictionary lemmas -/

theorem dict_set_not_mem {w : List (Board × Score)} {k : Board} (v : Score)
    (h : k ∉ dict_keys w) : dict_set w k v = w ++ [(k, v)] := by
  induction w with
  | nil => rfl
  | cons p rest ih =>
    have hne : p.1 ≠ k := by
      intro he
      exact h (by simp [dict_keys, he])
    have hk : k ∉ dict_keys rest := fun hm => h (by simp [dict_keys] at hm ⊢; exact Or.inr hm)
    calc dict_set (p :: rest) k v = p :: dict_set rest k v := by
          rw [dict_set]
          simp [hne]
      _ = p :: (rest ++ [(k, v)]) := by rw [ih hk]
      _ = (p :: rest) ++ [(k, v)] := by simp

theorem dict_keys_append (w : List (Board × Score)) (k : Board) (v : Score) :
    dict_keys (w ++ [(k, v)]) = dict_keys w ++ [k] := by
  simp [dict_keys]

theorem dict_get_some_of_mem {w : List (Board × Score)} {k : Board} (h : k ∈ dict_keys w) :
    ∃ v, dict_get w k = some v := by
  induction w with
  | nil => simp [dict_keys] at h
  | cons p rest ih =>
    by_cases he : p.1 = k
    · exact ⟨p.2, by rw [dict_get]; simp [he]⟩
    · have : k ∈ dict_keys rest := by
        simp [dict_keys] at h ⊢
        tauto
      obtain ⟨v, hv⟩ := ih this
      exact ⟨v, by rw [dict_get]; simp [he, hv]⟩

theorem dict_get_mem_keys {w : List (Board × Score)} {k : Board} {v : Score}
    (h : dict_get w k = some v) : k ∈ dict_keys w := by
  induction w with
  | nil => simp [dict_get] at h
  | cons p rest ih =>
    rw [dict_get] at h
    by_cases he : p.1 = k
    · simp [dict_keys, he]
    · simp [he] at h
      simp [dict_keys]
      exact Or.inr (by simpa [dict_keys] using ih h)

theorem dict_keys_dict_set_of_mem {w : List (Board × Score)} {k : Board} (v : Score)
    (h : k ∈ dict_keys w) : dict_keys (dict_set w k v) = dict_keys w := by
  induction w with
  | nil => simp [dict_keys] at h
  | cons p rest ih =>
    by_cases he : p.1 = k
    · rw [dict_set]
      simp [he, dict_keys]
    · have : k ∈ dict_keys rest := by
        simp [dict_keys] at h ⊢
        tauto
      rw [dict_set]
      simp only [he, if_false]
      have hrec := ih this
      simp only [dict_keys, List.map_cons] at hrec ⊢
      rw [hrec]

theorem dict_get_dict_set_same {w : List (Board × Score)} {k : Board} (v : Score) :
    dict_get (dict_set w k v) k = some v := by
  induction w with
  | nil => simp [dict_set, dict_get]
  | cons p rest ih =>
    rw [dict_set]
    by_cases he : p.1 = k
    · simp only [he, if_true]
      rw [dict_get]
      simp [he]
    · simp only [he, if_false]
      rw [dict_get]
      simp [he, ih]

theorem dict_get_dict_set_other {w : List (Board × Score)} {k k' : Board} (v : Score)
    (h : k' ≠ k) : dict_get (dict_set w k v) k' = dict_get w k' := by
  induction w with
  | nil =>
    have hne : k ≠ k' := fun e => h e.symm
    simp [dict_set, dict_get, hne]
  | cons p rest ih =>
    have hne : k ≠ k' := fun e => h e.symm
    rw [dict_set]
    by_cases he : p.1 = k
    · simp only [he, if_true]
      rw [dict_get, dict_get]
      simp [he, hne]
    · simp only [he, if_false]
      rw [dict_get, dict_get]
      by_cases he' : p.1 = k'
      · simp [he']
      · simp [he', ih]

/-! ## Lemmas about the neighbor scan -/

theorem scan_neighbors_eq (ns : List Board) : ∀ q seen,
    scan_neighbors ns q seen = (q ++ newOf ns seen, seen ++ newOf ns seen) := by
  induction ns with
  | nil => intro q seen; simp [scan_neighbors, newOf]
  | cons n rest ih =>
    intro q seen
    rw [scan_neighbors, newOf]
    by_cases hn : n ∈ seen
    · simp only [hn, if_true]
      exact ih q seen
    · simp only [hn, if_false]
      rw [ih]
      simp

theorem newOf_subset {ns seen : List Board} : ∀ {c}, c ∈ newOf ns seen → c ∈ ns := by
  induction ns generalizing seen with
  | nil => intro c hc; simp [newOf] at hc
  | cons n rest ih =>
    intro c hc
    rw [newOf] at hc
    by_cases hn : n ∈ seen
    · simp only [hn, if_true] at hc
      exact List.mem_cons_of_mem n (ih hc)
    · simp only [hn, if_false] at hc
      rcases List.mem_cons.mp hc with rfl | hc'
      · exact List.mem_cons_self _ _
      · exact List.mem_cons_of_mem n (ih hc')

theorem newOf_not_seen {ns seen : List Board} : ∀ {c}, c ∈ newOf ns seen → c ∉ seen := by
  induction ns generalizing seen with
  | nil => intro c hc; simp [newOf] at hc
  | cons n rest ih =>
    intro c hc
    rw [newOf] at hc
    by_cases hn : n ∈ seen
    · simp only [hn, if_true] at hc
      exact ih hc
    · simp only [hn, if_false] at hc
      rcases List.mem_cons.mp hc with rfl | hc'
      · exact hn
      · intro hcs
        exact ih hc' (by simp [hcs])

theorem newOf_nodup (ns : List Board) : ∀ seen, (newOf ns seen).Nodup := by
  induction ns with
  | nil => intro seen; simp [newOf]
  | cons n rest ih =>
    intro seen
    rw [newOf]
    by_cases hn : n ∈ seen
    · simp only [hn, if_true]
      exact ih seen
    · simp only [hn, if_false]
      refine List.nodup_cons.mpr ⟨?_, ih (seen ++ [n])⟩
      intro hmem
      exact newOf_not_seen hmem (by simp)

theorem mem_seen_or_newOf {ns : List Board} : ∀ (seen : List Board) {c}, c ∈ ns →
    c ∈ seen ∨ c ∈ newOf ns seen := by
  induction ns with
  | nil => intro seen c hc; simp at hc
  | cons n rest ih =>
    intro seen c hc
    rw [newOf]
    by_cases hn : n ∈ seen
    · simp only [hn, if_true]
      rcases List.mem_cons.mp hc with rfl | hc'
      · exact Or.inl hn
      · exact ih seen hc'
    · simp only [hn, if_false]
      rcases List.mem_cons.mp hc with rfl | hc'
      · exact Or.inr (List.mem_cons_self c _)
      · rcases ih (seen ++ [n]) hc' with hs | hnew
        · rcases List.mem_append.mp hs with hs' | hs'
          · exact Or.inl hs'
          · simp at hs'
            subst hs'
            exact Or.inr (List.mem_cons_self c _)
        · exact Or.inr (List.mem_cons_of_mem n hnew)

/-! ## The BFS invariant -/

theorem BfsInv_top_not_mem {top : Board} {q' seen : List Board} {vm : List (Board × Score)}
    (h : BfsInv (top :: q') seen vm) : top ∉ dict_keys vm := by
  obtain ⟨h1, h2, -⟩ := h
  rw [h1] at h2
  intro hmem
  exact (List.nodup_append.mp h2).2.2 hmem (List.mem_cons_self _ _)

theorem BfsInv_step {top : Board} {q' seen : List Board} {vm : List (Board × Score)}
    (h : BfsInv (top :: q') seen vm) :
    BfsInv (q' ++ newOf (get_children top) seen)
      (seen ++ newOf (get_children top) seen)
      (dict_set vm top (init_score (classify_board top))) := by
  have htop : top ∉ dict_keys vm := BfsInv_top_not_mem h
  obtain ⟨h1, h2, h3, h4, h5, h6⟩ := h
  have hset : dict_set vm top (init_score (classify_board top)) =
      vm ++ [(top, init_score (classify_board top))] := dict_set_not_mem _ htop
  have hkeys : dict_keys (dict_set vm top (init_score (classify_board top))) =
      dict_keys vm ++ [top] := by rw [hset, dict_keys_append]
  have htopseen : top ∈ seen := by
    rw [h1]
    exact List.mem_append_right _ (List.mem_cons_self _ _)
  refine ⟨?_, ?_, ?_, ?_, ?_, ?_⟩
  · rw [hkeys, h1]
    simp
  · refine List.nodup_append.mpr ⟨h2, newOf_nodup _ _, ?_⟩
    intro a ha hmem
    exact newOf_not_seen hmem ha
  · intro b hb
    rcases List.mem_append.mp hb with hb' | hb'
    · exact h3 b hb'
    · exact Reachable.step (h3 top htopseen) (newOf_subset hb')
  · intro b hb c hc
    rw [hkeys] at hb
    rcases List.mem_append.mp hb with hb' | hb'
    · exact List.mem_append_left _ (h4 b hb' c hc)
    · simp at hb'
      subst hb'
      rcases mem_seen_or_newOf _ hc with hs | hn
      · exact List.mem_append_left _ hs
      · exact List.mem_append_right _ hn
  · exact List.mem_append_left _ h5
  · intro p hp
    rw [hset] at hp
    rcases List.mem_append.mp hp with hp' | hp'
    · exact h6 p hp'
    · simp at hp'
      subst hp'
      rfl

theorem BfsInv_final {seen : List Board} {vm : List (Board × Score)}
    (h : BfsInv [] seen vm) :
    (∀ b, b ∈ dict_keys vm ↔ Reachable b) ∧ (dict_keys vm).Nodup ∧
      (∀ p ∈ vm, p.2 = init_score (classify_board p.1)) := by
  obtain ⟨h1, h2, h3, h4, h5, h6⟩ := h
  rw [List.append_nil] at h1
  refine ⟨?_, by rwa [h1] at h2, h6⟩
  intro b
  constructor
  · intro hb
    exact h3 b (by rwa [h1])
  · intro hr
    induction hr with
    | empty => rwa [h1] at h5
    | step hb hc ih => rw [← h1]; exact h1 ▸ h4 _ ih _ hc

theorem make_states_aux_spec : ∀ (fuel : Nat) {q seen : List Board}
    {vm vm' : List (Board × Score)},
    BfsInv q seen vm → make_states_aux fuel q seen vm = some vm' →
    (∀ b, b ∈ dict_keys vm' ↔ Reachable b) ∧ (dict_keys vm').Nodup ∧
      (∀ p ∈ vm', p.2 = init_score (classify_board p.1)) := by
  intro fuel
  induction fuel with
  | zero =>
    intro q seen vm vm' hinv heq
    rw [make_states_aux.eq_def] at heq
    by_cases hq : q.isEmpty
    · simp only [hq, if_true, Option.some.injEq] at heq
      subst heq
      rw [List.isEmpty_iff.mp hq] at hinv
      exact BfsInv_final hinv
    · simp [hq] at heq
  | succ fuel ih =>
    intro q seen vm vm' hinv heq
    rw [make_states_aux.eq_def] at heq
    cases q with
    | nil =>
      simp only [Option.some.injEq] at heq
      subst heq
      exact BfsInv_final hinv
    | cons top q' =>
      simp only [scan_neighbors_eq] at heq
      exact ih (BfsInv_step hinv) heq

/-! ## The board code -/

theorem cellCode_lt (c : Cell) : cellCode c < 3 := by
  rcases c with _ | p
  · simp [cellCode]
  · rcases p <;> simp [cellCode]

theorem cellCode_inj : ∀ c d : Cell, cellCode c = cellCode d → c = d := by
  intro c d h
  match c, d with
  | none, none => rfl
  | none, some q => cases q <;> simp [cellCode] at h
  | some p, none => cases p <;> simp [cellCode] at h
  | some p, some q =>
    cases p <;> cases q <;>
      first
        | rfl
        | simp [cellCode] at h

theorem encode_lt (b : Board) : encode b < 19683 := by
  obtain ⟨⟨c1, c2, c3⟩, ⟨c4, c5, c6⟩, ⟨c7, c8, c9⟩⟩ := b
  unfold encode
  dsimp only
  have := cellCode_lt c1
  have := cellCode_lt c2
  have := cellCode_lt c3
  have := cellCode_lt c4
  have := cellCode_lt c5
  have := cellCode_lt c6
  have := cellCode_lt c7
  have := cellCode_lt c8
  have := cellCode_lt c9
  omega

theorem digit3 {a b x y : Nat} (ha : a < 3) (hb : b < 3) (h : a + 3 * x = b + 3 * y) :
    a = b ∧ x = y := by omega

theorem encode_injective : Function.Injective encode := by
  intro b1 b2 h
  obtain ⟨⟨x1, x2, x3⟩, ⟨x4, x5, x6⟩, ⟨x7, x8, x9⟩⟩ := b1
  obtain ⟨⟨y1, y2, y3⟩, ⟨y4, y5, y6⟩, ⟨y7, y8, y9⟩⟩ := b2
  unfold encode at h
  dsimp only at h
  obtain ⟨e1, h⟩ := digit3 (cellCode_lt _) (cellCode_lt _) h
  obtain ⟨e2, h⟩ := digit3 (cellCode_lt _) (cellCode_lt _) h
  obtain ⟨e3, h⟩ := digit3 (cellCode_lt _) (cellCode_lt _) h
  obtain ⟨e4, h⟩ := digit3 (cellCode_lt _) (cellCode_lt _) h
  obtain ⟨e5, h⟩ := digit3 (cellCode_lt _) (cellCode_lt _) h
  obtain ⟨e6, h⟩ := digit3 (cellCode_lt _) (cellCode_lt _) h
  obtain ⟨e7, h⟩ := digit3 (cellCode_lt _) (cellCode_lt _) h
  obtain ⟨e8, e9⟩ := digit3 (cellCode_lt _) (cellCode_lt _) h
  rw [cellCode_inj _ _ e1, cellCode_inj _ _ e2, cellCode_inj _ _ e3, cellCode_inj _ _ e4,
    cellCode_inj _ _ e5, cellCode_inj _ _ e6, cellCode_inj _ _ e7, cellCode_inj _ _ e8,
    cellCode_inj _ _ e9]

theorem nodup_boards_length_le (l : List Board) (h : l.Nodup) : l.length ≤ 19683 := by
  have hnodup : (l.map encode).Nodup := h.map encode_injective
  have hcard : (l.map encode).toFinset.card = (l.map encode).length :=
    List.toFinset_card_of_nodup hnodup
  have hsub : (l.map encode).toFinset ⊆ Finset.range 19683 := by
    intro n hn
    rw [List.mem_toFinset, List.mem_map] at hn
    obtain ⟨b, _, rfl⟩ := hn
    exact Finset.mem_range.mpr (encode_lt b)
  have hle := Finset.card_le_card hsub
  rw [hcard, Finset.card_range, List.length_map] at hle
  exact hle

theorem BfsInv_init : BfsInv [EMPTY] [EMPTY] [] := by
  refine ⟨by simp [dict_keys], by simp, ?_, by simp [dict_keys], by simp, by simp⟩
  intro b hb
  simp at hb
  subst hb
  exact Reachable.empty


/-! ## The kernel pass over the board codes, in chunks -/

theorem scanFrom_zero (lo acc : Nat) : scanFrom lo 0 acc = some acc := rfl

theorem scanFrom_succ (lo n acc : Nat) :
    scanFrom lo (n + 1) acc =
      match checkCode (lo + n) with
      | none => none
      | some false => scanFrom lo n acc
      | some true => scanFrom lo n (acc + 1) := rfl

theorem scanFrom_add (lo a : Nat) : ∀ (b acc : Nat),
    scanFrom lo (a + b) acc =
      match scanFrom (lo + a) b acc with
      | none => none
      | some acc2 => scanFrom lo a acc2 := by
  intro b
  induction b with
  | zero => intro acc; rfl
  | succ b ih =>
    intro acc
    rw [show a + (b + 1) = (a + b) + 1 from rfl]
    rw [scanFrom_succ, scanFrom_succ]
    rw [show lo + (a + b) = lo + a + b by omega]
    cases hc : checkCode (lo + a + b) with
    | none => rfl
    | some bv =>
      cases bv with
      | false => exact ih acc
      | true => exact ih (acc + 1)

theorem scanFrom_accum (lo : Nat) : ∀ (n acc : Nat),
    scanFrom lo n acc = Option.map (fun m => acc + m) (scanFrom lo n 0) := by
  intro n
  induction n with
  | zero => intro acc; rfl
  | succ n ih =>
    intro acc
    rw [scanFrom_succ, scanFrom_succ]
    cases hc : checkCode (lo + n) with
    | none => rfl
    | some bv =>
      cases bv with
      | false => exact ih acc
      | true =>
        rw [ih (acc + 1), ih 1]
        cases hs : scanFrom lo n 0 with
        | none => rfl
        | some m =>
          show some (acc + 1 + m) = some (acc + (1 + m))
          rw [show acc + 1 + m = acc + (1 + m) by omega]

theorem scanFrom_split {a m : Nat} (b acc : Nat) (h : scanFrom a b acc = some m) :
    scanFrom 0 (a + b) acc = scanFrom 0 a m := by
  have hadd := scanFrom_add 0 a b acc
  rw [Nat.zero_add] at hadd
  rw [hadd, h]

theorem scanFrom_shift {n s : Nat} (acc : Nat) (h : scanFrom 0 n 0 = some s) :
    scanFrom 0 n acc = some (acc + s) := by
  rw [scanFrom_accum 0 n acc, h]
  rfl

set_option maxRecDepth 100000 in
/-- Kernel evaluation of the per-code check on the codes 0..2186. -/
theorem chunk0 : scanFrom 0 2187 0 = some 730 := by
  decide!

set_option maxRecDepth 100000 in
/-- Kernel evaluation of the per-code check on the codes 2187..4373. -/
theorem chunk1 : scanFrom 2187 2187 0 = some 715 := by
  decide!

set_option maxRecDepth 100000 in
/-- Kernel evaluation of the per-code check on the codes 4374..6560. -/
theorem chunk2 : scanFrom 4374 2187 0 = some 578 := by
  decide!

set_option maxRecDepth 100000 in
/-- Kernel evaluation of the per-code check on the codes 6561..8747. -/
theorem chunk3 : scanFrom 6561 2187 0 = some 700 := by
  decide!

set_option maxRecDepth 100000 in
/-- Kernel evaluation of the per-code check on the codes 8748..10934. -/
theorem chunk4 : scanFrom 8748 2187 0 = some 518 := by
  decide!

set_option maxRecDepth 100000 in
/-- Kernel evaluation of the per-code check on the codes 10935..13121. -/
theorem chunk5 : scanFrom 10935 2187 0 = some 655 := by
  decide!

set_option maxRecDepth 100000 in
/-- Kernel evaluation of the per-code check on the codes 13122..15308. -/
theorem chunk6 : scanFrom 13122 2187 0 = some 573 := by
  decide!

set_option maxRecDepth 100000 in
/-- Kernel evaluation of the per-code check on the codes 15309..17495. -/
theorem chunk7 : scanFrom 15309 2187 0 = some 670 := by
  decide!

set_option maxRecDepth 100000 in
/-- Kernel evaluation of the per-code check on the codes 17496..19682. -/
theorem chunk8 : scanFrom 17496 2187 0 = some 339 := by
  decide!

theorem cum1 : scanFrom 0 2187 0 = some 730 := chunk0

theorem cum2 : scanFrom 0 4374 0 = some 1445 := by
  rw [show (4374 : Nat) = 2187 + 2187 from rfl]
  rw [scanFrom_split 2187 0 chunk1]
  rw [scanFrom_shift 715 cum1]

theorem cum3 : scanFrom 0 6561 0 = some 2023 := by
  rw [show (6561 : Nat) = 4374 + 2187 from rfl]
  rw [scanFrom_split 2187 0 chunk2]
  rw [scanFrom_shift 578 cum2]

theorem cum4 : scanFrom 0 8748 0 = some 2723 := by
  rw [show (8748 : Nat) = 6561 + 2187 from rfl]
  rw [scanFrom_split 2187 0 chunk3]
  rw [scanFrom_shift 700 cum3]

theorem cum5 : scanFrom 0 10935 0 = some 3241 := by
  rw [show (10935 : Nat) = 8748 + 2187 from rfl]
  rw [scanFrom_split 2187 0 chunk4]
  rw [scanFrom_shift 518 cum4]

theorem cum6 : scanFrom 0 13122 0 = some 3896 := by
  rw [show (13122 : Nat) = 10935 + 2187 from rfl]
  rw [scanFrom_split 2187 0 chunk5]
  rw [scanFrom_shift 655 cum5]

theorem cum7 : scanFrom 0 15309 0 = some 4469 := by
  rw [show (15309 : Nat) = 13122 + 2187 from rfl]
  rw [scanFrom_split 2187 0 chunk6]
  rw [scanFrom_shift 573 cum6]

theorem cum8 : scanFrom 0 17496 0 = some 5139 := by
  rw [show (17496 : Nat) = 15309 + 2187 from rfl]
  rw [scanFrom_split 2187 0 chunk7]
  rw [scanFrom_shift 670 cum7]

theorem cum9 : scanFrom 0 19683 0 = some 5478 := by
  rw [show (19683 : Nat) = 17496 + 2187 from rfl]
  rw [scanFrom_split 2187 0 chunk8]
  rw [scanFrom_shift 339 cum8]

/-- The assembled scan: every code below 19683 passes the per-code check,
and exactly 5478 of them decode to reachSpec boards. -/
theorem scanFrom_run : scanFrom 0 19683 0 = some 5478 := cum9

/-! ## Soundness and counting for the scan -/

theorem scanFrom_sound (lo : Nat) : ∀ (n acc m : Nat), scanFrom lo n acc = some m →
    ∀ k, k < n → checkCode (lo + k) ≠ none := by
  intro n
  induction n with
  | zero => intro acc m hs k hk; exact absurd hk (Nat.not_lt_zero k)
  | succ n ih =>
    intro acc m hs k hk
    rw [scanFrom_succ] at hs
    cases hc : checkCode (lo + n) with
    | none => rw [hc] at hs; cases hs
    | some bv =>
      rw [hc] at hs
      by_cases hkn : k = n
      · subst hkn
        rw [hc]
        simp
      · have hk2 : k < n := by omega
        cases bv with
        | false => exact ih acc m hs k hk2
        | true => exact ih (acc + 1) m hs k hk2

theorem scanFrom_count (lo : Nat) : ∀ (n acc m : Nat), scanFrom lo n acc = some m →
    m = acc + ((Finset.range n).filter fun k => checkCode (lo + k) = some true).card := by
  intro n
  induction n with
  | zero =>
    intro acc m hs
    rw [scanFrom_zero, Option.some.injEq] at hs
    subst hs
    simp
  | succ n ih =>
    intro acc m hs
    rw [scanFrom_succ] at hs
    have hins : (Finset.range (n + 1)).filter (fun k => checkCode (lo + k) = some true) =
        if checkCode (lo + n) = some true
        then insert n ((Finset.range n).filter fun k => checkCode (lo + k) = some true)
        else (Finset.range n).filter fun k => checkCode (lo + k) = some true := by
      rw [Finset.range_succ, Finset.filter_insert]
    cases hc : checkCode (lo + n) with
    | none => rw [hc] at hs; cases hs
    | some bv =>
      rw [hc] at hs
      cases bv with
      | false =>
        rw [hins, if_neg (by simp [hc])]
        exact ih acc m hs
      | true =>
        rw [hins, if_pos hc]
        rw [Finset.card_insert_of_not_mem (by simp)]
        have := ih (acc + 1) m hs
        omega

theorem checkCode_all {k : Nat} (h : k < 19683) : checkCode k ≠ none := by
  have hs := scanFrom_sound 0 19683 0 5478 scanFrom_run k h
  rwa [Nat.zero_add] at hs

theorem reach_count :
    ((Finset.range 19683).filter fun k => checkCode k = some true).card = 5478 := by
  have hs := scanFrom_count 0 19683 0 5478 scanFrom_run
  simp only [Nat.zero_add] at hs
  omega

/-! ## Extracting the per-code facts -/

theorem checkCode_eq (k : Nat) : checkCode k =
    (if reachSpec (decode k) then (if certOK (decode k) then some true else none)
     else some false) := rfl

theorem checkCode_cert {k : Nat} (h : checkCode k ≠ none)
    (hr : reachSpec (decode k) = true) : certOK (decode k) = true := by
  by_cases hc : certOK (decode k) = true
  · exact hc
  · exfalso
    apply h
    rw [checkCode_eq, hr]
    simp [hc]

theorem checkCode_true_iff {k : Nat} (h : checkCode k ≠ none) :
    checkCode k = some true ↔ reachSpec (decode k) = true := by
  constructor
  · intro ht
    by_contra hr
    rw [checkCode_eq, if_neg hr] at ht
    exact absurd ht (by decide)
  · intro hr
    have hc := checkCode_cert h hr
    rw [checkCode_eq, hr, hc]
    rfl

theorem cellCode_decodeCell {d : Nat} (h : d < 3) : cellCode (decodeCell d) = d := by
  interval_cases d <;> rfl

theorem encode_decode {k : Nat} (h : k < 19683) : encode (decode k) = k := by
  have h0 : k % 3 < 3 := Nat.mod_lt _ (by norm_num)
  have h1 : k / 3 % 3 < 3 := Nat.mod_lt _ (by norm_num)
  have h2 : k / 9 % 3 < 3 := Nat.mod_lt _ (by norm_num)
  have h3 : k / 27 % 3 < 3 := Nat.mod_lt _ (by norm_num)
  have h4 : k / 81 % 3 < 3 := Nat.mod_lt _ (by norm_num)
  have h5 : k / 243 % 3 < 3 := Nat.mod_lt _ (by norm_num)
  have h6 : k / 729 % 3 < 3 := Nat.mod_lt _ (by norm_num)
  have h7 : k / 2187 % 3 < 3 := Nat.mod_lt _ (by norm_num)
  have h8 : k / 6561 % 3 < 3 := Nat.mod_lt _ (by norm_num)
  unfold encode decode
  dsimp only
  rw [cellCode_decodeCell h0, cellCode_decodeCell h1, cellCode_decodeCell h2,
    cellCode_decodeCell h3, cellCode_decodeCell h4, cellCode_decodeCell h5,
    cellCode_decodeCell h6, cellCode_decodeCell h7, cellCode_decodeCell h8]
  omega

theorem decode_encode (b : Board) : decode (encode b) = b :=
  encode_injective (encode_decode (encode_lt b))

/-! ## Agreement of the fast primitives with the source functions -/

theorem cellX_eq (c : Cell) : cellX c = cellCount c Player.X := by
  rcases c with _ | p
  · rfl
  · rcases p <;> rfl

theorem cellO_eq (c : Cell) : cellO c = cellCount c Player.O := by
  rcases c with _ | p
  · rfl
  · rcases p <;> rfl

theorem xCount_eq (b : Board) : xCount b = (count_pieces b).1 := by
  obtain ⟨⟨c1, c2, c3⟩, ⟨c4, c5, c6⟩, ⟨c7, c8, c9⟩⟩ := b
  simp [xCount, count_pieces, rowCount, cellX_eq]
  omega

theorem oCount_eq (b : Board) : oCount b = (count_pieces b).2 := by
  obtain ⟨⟨c1, c2, c3⟩, ⟨c4, c5, c6⟩, ⟨c7, c8, c9⟩⟩ := b
  simp [oCount, count_pieces, rowCount, cellO_eq]
  omega

theorem cellIs_iff (c : Cell) (p : Player) : cellIs c p = true ↔ c = some p := by
  rcases c with _ | q
  · rcases p <;> simp [cellIs]
  · rcases q <;> rcases p <;> simp [cellIs]

theorem cellBeq_iff (a b : Cell) : cellBeq a b = true ↔ a = b := by
  rcases a with _ | p
  · rcases b with _ | q
    · simp [cellBeq]
    · rcases q <;> simp [cellBeq]
  · rcases b with _ | q
    · rcases p <;> simp [cellBeq]
    · rcases p <;> rcases q <;> simp [cellBeq]

theorem boardBeq_iff (a b : Board) : boardBeq a b = true ↔ a = b := by
  obtain ⟨⟨a1, a2, a3⟩, ⟨a4, a5, a6⟩, ⟨a7, a8, a9⟩⟩ := a
  obtain ⟨⟨b1, b2, b3⟩, ⟨b4, b5, b6⟩, ⟨b7, b8, b9⟩⟩ := b
  simp [boardBeq, rowBeq, cellBeq_iff, Prod.ext_iff]
  tauto

theorem winF_eq (b : Board) (p : Player) : winF b p = has_win b p := by
  obtain ⟨⟨c1, c2, c3⟩, ⟨c4, c5, c6⟩, ⟨c7, c8, c9⟩⟩ := b
  rw [Bool.eq_iff_iff]
  simp [winF, has_win, lines, cell, cellIs_iff]

theorem nat_ble_iff (m n : Nat) : Nat.ble m n = true ↔ m ≤ n := by
  rw [Nat.ble_eq]

theorem nat_beq_refl (m : Nat) : Nat.beq m m = true := by
  induction m with
  | zero => rfl
  | succ m ih => exact ih

theorem nat_beq_iff (m n : Nat) : Nat.beq m n = true ↔ m = n := by
  constructor
  · exact Nat.eq_of_beq_eq_true
  · intro h
    subst h
    exact nat_beq_refl m

theorem reachSpec_iff (b : Board) : reachSpec b = true ↔
    ((count_pieces b).2 ≤ (count_pieces b).1 ∧
     (count_pieces b).1 ≤ (count_pieces b).2 + 1 ∧
     ¬(has_win b Player.X = true ∧ has_win b Player.O = true) ∧
     (has_win b Player.X = true → (count_pieces b).1 = (count_pieces b).2 + 1) ∧
     (has_win b Player.O = true → (count_pieces b).1 = (count_pieces b).2)) := by
  cases hx : has_win b Player.X <;> cases ho : has_win b Player.O <;>
    simp [reachSpec, xCount_eq, oCount_eq, winF_eq, hx, ho, nat_ble_iff, nat_beq_iff] <;>
    omega

/-! ## The predecessor certificate -/

theorem clear_cell_eq (b : Board) (i j : Nat) (hi : i < 3) (hj : j < 3) :
    cell (clear b i j) i j = none := by
  interval_cases i <;> interval_cases j <;> rfl

theorem move_clear_cancel {b : Board} {p : Player} {i j : Nat} (hi : i < 3) (hj : j < 3)
    (h : cell b i j = some p) : _move (clear b i j) i j p = b := by
  obtain ⟨⟨c1, c2, c3⟩, ⟨c4, c5, c6⟩, ⟨c7, c8, c9⟩⟩ := b
  interval_cases i <;> interval_cases j <;>
    (simp only [cell] at h
     simp [clear, _move, h])

theorem findPred_some {b : Board} {p : Player} {ij : Nat × Nat}
    (h : findPred b p = some ij) :
    ij.1 < 3 ∧ ij.2 < 3 ∧ cellIs (cell b ij.1 ij.2) p = true ∧
      winF (clear b ij.1 ij.2) p = false := by
  have hmem := List.mem_of_find?_eq_some h
  have hpred := List.find?_some h
  simp only [Bool.and_eq_true, Bool.not_eq_true'] at hpred
  refine ⟨?_, ?_, hpred.1, hpred.2⟩ <;>
    (simp only [List.mem_cons, List.not_mem_nil, or_false] at hmem
     rcases hmem with rfl | rfl | rfl | rfl | rfl | rfl | rfl | rfl | rfl <;> decide)

/-! ## Further inversions of classify_board -/

theorem classify_xwin_inv {b : Board} (h : classify_board b = GameState.XWIN) :
    has_win b Player.X = true := by
  unfold classify_board at h
  dsimp only at h
  split_ifs at h <;> simp_all

theorem classify_owin_inv {b : Board} (h : classify_board b = GameState.OWIN) :
    has_win b Player.O = true := by
  unfold classify_board at h
  dsimp only at h
  split_ifs at h <;> simp_all

theorem classify_draw_inv {b : Board} (h : classify_board b = GameState.DRAW) :
    (count_pieces b).1 + (count_pieces b).2 = 9 := by
  unfold classify_board at h
  dsimp only at h
  split_ifs at h <;> simp_all

/-! ## Reachability matches the closed characterization -/

theorem reachable_spec {b : Board} (h : Reachable b) : reachSpec b = true := by
  induction h with
  | empty => decide
  | step hb hc ih =>
    rename_i b0 c0
    obtain ⟨p, hcase, i, hi, j, hj, he, rfl⟩ := mem_get_children hc
    rw [reachSpec_iff] at ih ⊢
    obtain ⟨hole, hxle, -, -, -⟩ := ih
    rcases hcase with ⟨hcl, rfl⟩ | ⟨hcl, rfl⟩
    · obtain ⟨-, -, how, -, hle⟩ := classify_xturn_inv hcl
      have hxo : (count_pieces b0).1 = (count_pieces b0).2 := le_antisymm hle hole
      have hcp := count_pieces_move_X b0 i j hi hj he
      have hw := has_win_move b0 Player.X Player.O (by decide) i j hi hj he
      have h1 : (count_pieces (_move b0 i j Player.X)).1 = (count_pieces b0).1 + 1 := by
        rw [hcp]
      have h2 : (count_pieces (_move b0 i j Player.X)).2 = (count_pieces b0).2 := by
        rw [hcp]
      refine ⟨by omega, by omega, ?_, fun _ => by omega, ?_⟩
      · rintro ⟨-, hwo⟩
        rw [hw, how] at hwo
        simp at hwo
      · intro hwo
        rw [hw, how] at hwo
        simp at hwo
    · obtain ⟨-, hxw, -, -, hlt⟩ := classify_oturn_inv hcl
      have hcp := count_pieces_move_O b0 i j hi hj he
      have hw := has_win_move b0 Player.O Player.X (by decide) i j hi hj he
      have h1 : (count_pieces (_move b0 i j Player.O)).1 = (count_pieces b0).1 := by
        rw [hcp]
      have h2 : (count_pieces (_move b0 i j Player.O)).2 = (count_pieces b0).2 + 1 := by
        rw [hcp]
      refine ⟨by omega, by omega, ?_, ?_, fun _ => by omega⟩
      · rintro ⟨hwx, -⟩
        rw [hw, hxw] at hwx
        simp at hwx
      · intro hwx
        rw [hw, hxw] at hwx
        simp at hwx

theorem cert_empty {b : Board} (hc : certOK b = true) (h0 : xCount b + oCount b = 0) :
    b = EMPTY := by
  unfold certOK at hc
  rw [if_pos h0] at hc
  exact (boardBeq_iff b EMPTY).mp hc

theorem cert_of_spec {b : Board} (h : reachSpec b = true) : certOK b = true := by
  have hlt : encode b < 19683 := encode_lt b
  have hcc : checkCode (encode b) ≠ none := checkCode_all hlt
  have hdb : decode (encode b) = b := decode_encode b
  have hcert := checkCode_cert hcc (by rw [hdb]; exact h)
  rwa [hdb] at hcert

theorem spec_reachable : ∀ (n : Nat) (b : Board), xCount b + oCount b ≤ n →
    reachSpec b = true → Reachable b := by
  intro n
  induction n with
  | zero =>
    intro b hle hr
    have h0 : xCount b + oCount b = 0 := by omega
    rw [cert_empty (cert_of_spec hr) h0]
    exact Reachable.empty
  | succ n ih =>
    intro b hle hr
    have hc := cert_of_spec hr
    by_cases h0 : xCount b + oCount b = 0
    · rw [cert_empty hc h0]
      exact Reachable.empty
    · unfold certOK at hc
      rw [if_neg h0] at hc
      have hxx : xCount b = (count_pieces b).1 := xCount_eq b
      have hoo : oCount b = (count_pieces b).2 := oCount_eq b
      obtain ⟨h21, h22, hnd, hxw1, how1⟩ := (reachSpec_iff b).mp hr
      have h9 := count_pieces_le_nine b
      by_cases hp : xCount b = oCount b + 1
      · rw [if_pos hp] at hc
        cases hfp : findPred b Player.X with
        | none => rw [hfp] at hc; exact absurd hc (by decide)
        | some ij =>
          obtain ⟨i, j⟩ := ij
          obtain ⟨hi, hj, hcell, hnw⟩ := findPred_some hfp
          have hcb : cell b i j = some Player.X := (cellIs_iff _ _).mp hcell
          have hclr : cell (clear b i j) i j = none := clear_cell_eq b i j hi hj
          have hback : _move (clear b i j) i j Player.X = b := move_clear_cancel hi hj hcb
          have hcp := count_pieces_move_X (clear b i j) i j hi hj hclr
          rw [hback] at hcp
          have hc1 : (count_pieces b).1 = (count_pieces (clear b i j)).1 + 1 := by
            rw [hcp]
          have hc2 : (count_pieces b).2 = (count_pieces (clear b i j)).2 := by
            rw [hcp]
          have hwo := has_win_move (clear b i j) Player.X Player.O (by decide) i j hi hj hclr
          rw [hback] at hwo
          have hxwp : has_win (clear b i j) Player.X = false := by
            rw [← winF_eq]
            exact hnw
          have hob : has_win b Player.O = false := by
            cases hbo : has_win b Player.O with
            | false => rfl
            | true =>
              have := how1 hbo
              omega
          have howp : has_win (clear b i j) Player.O = false := by
            rw [← hwo]
            exact hob
          have hxp : xCount (clear b i j) = (count_pieces (clear b i j)).1 := xCount_eq _
          have hop : oCount (clear b i j) = (count_pieces (clear b i j)).2 := oCount_eq _
          have hrs : reachSpec (clear b i j) = true := by
            rw [reachSpec_iff]
            refine ⟨by omega, by omega, ?_, ?_, fun _ => by omega⟩
            · rintro ⟨hwx2, -⟩
              rw [hxwp] at hwx2
              simp at hwx2
            · intro hwx2
              rw [hxwp] at hwx2
              simp at hwx2
          have hcls : classify_board (clear b i j) = GameState.XTURN := by
            rcases hclz : classify_board (clear b i j) with _ | _ | _ | _ | _ | _
            · rcases classify_illegal_inv hclz with hz | hz
              · omega
              · rw [hxwp] at hz
                simp at hz
            · exact absurd (classify_xwin_inv hclz)
                (by rw [hxwp]; exact Bool.false_ne_true)
            · exact absurd (classify_owin_inv hclz)
                (by rw [howp]; exact Bool.false_ne_true)
            · have := classify_draw_inv hclz
              omega
            · rfl
            · obtain ⟨-, -, -, -, hlt2⟩ := classify_oturn_inv hclz
              omega
          have hcnt : xCount (clear b i j) + oCount (clear b i j) ≤ n := by omega
          have hprev : Reachable (clear b i j) := ih (clear b i j) hcnt hrs
          have hmem : _move (clear b i j) i j Player.X ∈ get_children (clear b i j) := by
            rw [get_children_eq_X hcls]
            exact mem_attempt_place.mpr ⟨i, hi, j, hj, hclr, rfl⟩
          rw [hback] at hmem
          exact Reachable.step hprev hmem
      · rw [if_neg hp] at hc
        cases hfp : findPred b Player.O with
        | none => rw [hfp] at hc; exact absurd hc (by decide)
        | some ij =>
          obtain ⟨i, j⟩ := ij
          obtain ⟨hi, hj, hcell, hnw⟩ := findPred_some hfp
          have hcb : cell b i j = some Player.O := (cellIs_iff _ _).mp hcell
          have hclr : cell (clear b i j) i j = none := clear_cell_eq b i j hi hj
          have hback : _move (clear b i j) i j Player.O = b := move_clear_cancel hi hj hcb
          have hcp := count_pieces_move_O (clear b i j) i j hi hj hclr
          rw [hback] at hcp
          have hc1 : (count_pieces b).1 = (count_pieces (clear b i j)).1 := by
            rw [hcp]
          have hc2 : (count_pieces b).2 = (count_pieces (clear b i j)).2 + 1 := by
            rw [hcp]
          have hwx := has_win_move (clear b i j) Player.O Player.X (by decide) i j hi hj hclr
          rw [hback] at hwx
          have howp : has_win (clear b i j) Player.O = false := by
            rw [← winF_eq]
            exact hnw
          have hxb : has_win b Player.X = false := by
            cases hbx : has_win b Player.X with
            | false => rfl
            | true =>
              have := hxw1 hbx
              omega
          have hxwp : has_win (clear b i j) Player.X = false := by
            rw [← hwx]
            exact hxb
          have hxp : xCount (clear b i j) = (count_pieces (clear b i j)).1 := xCount_eq _
          have hop : oCount (clear b i j) = (count_pieces (clear b i j)).2 := oCount_eq _
          have hrs : reachSpec (clear b i j) = true := by
            rw [reachSpec_iff]
            refine ⟨by omega, by omega, ?_, fun _ => by omega, ?_⟩
            · rintro ⟨hwx2, -⟩
              rw [hxwp] at hwx2
              simp at hwx2
            · intro hwo2
              rw [howp] at hwo2
              simp at hwo2
          have hcls : classify_board (clear b i j) = GameState.OTURN := by
            rcases hclz : classify_board (clear b i j) with _ | _ | _ | _ | _ | _
            · rcases classify_illegal_inv hclz with hz | hz
              · omega
              · rw [hxwp] at hz
                simp at hz
            · exact absurd (classify_xwin_inv hclz)
                (by rw [hxwp]; exact Bool.false_ne_true)
            · exact absurd (classify_owin_inv hclz)
                (by rw [howp]; exact Bool.false_ne_true)
            · have := classify_draw_inv hclz
              omega
            · obtain ⟨-, -, -, -, hle2⟩ := classify_xturn_inv hclz
              omega
            · rfl
          have hcnt : xCount (clear b i j) + oCount (clear b i j) ≤ n := by omega
          have hprev : Reachable (clear b i j) := ih (clear b i j) hcnt hrs
          have hmem : _move (clear b i j) i j Player.O ∈ get_children (clear b i j) := by
            rw [get_children_eq_O hcls]
            exact mem_attempt_place.mpr ⟨i, hi, j, hj, hclr, rfl⟩
          rw [hback] at hmem
          exact Reachable.step hprev hmem

theorem reachable_iff_spec (b : Board) : Reachable b ↔ reachSpec b = true :=
  ⟨reachable_spec, fun h => spec_reachable (xCount b + oCount b) b le_rfl h⟩


/-! ## Termination of make_states and its full specification -/

theorem make_states_aux_terminates : ∀ (fuel : Nat) (q seen : List Board)
    (vm : List (Board × Score)), BfsInv q seen vm →
    19683 ≤ fuel + (dict_keys vm).length →
    ∃ vm', make_states_aux fuel q seen vm = some vm' := by
  intro fuel
  induction fuel with
  | zero =>
    intro q seen vm hinv hle
    obtain ⟨h1, h2, -⟩ := hinv
    have hlen : seen.length ≤ 19683 := nodup_boards_length_le seen h2
    have hq : q = [] := by
      rw [h1, List.length_append] at hlen
      have hq0 : q.length = 0 := by omega
      exact List.length_eq_zero.mp hq0
    subst hq
    exact ⟨vm, rfl⟩
  | succ fuel ih =>
    intro q seen vm hinv hle
    cases q with
    | nil => exact ⟨vm, rfl⟩
    | cons top q' =>
      have hkeys : (dict_keys (dict_set vm top (init_score (classify_board top)))).length =
          (dict_keys vm).length + 1 := by
        rw [dict_set_not_mem _ (BfsInv_top_not_mem hinv), dict_keys_append,
          List.length_append]
        simp
      obtain ⟨vm', hvm'⟩ := ih (q' ++ newOf (get_children top) seen)
        (seen ++ newOf (get_children top) seen)
        (dict_set vm top (init_score (classify_board top)))
        (BfsInv_step hinv) (by omega)
      refine ⟨vm', ?_⟩
      rw [make_states_aux.eq_def]
      simp only [scan_neighbors_eq]
      exact hvm'

theorem make_states_spec : ∃ vm, make_states = some vm ∧
    (∀ b, b ∈ dict_keys vm ↔ Reachable b) ∧ (dict_keys vm).Nodup ∧
    (dict_keys vm).length = 5478 ∧
    (∀ p ∈ vm, p.2 = init_score (classify_board p.1)) := by
  obtain ⟨vm, hvm⟩ := make_states_aux_terminates 20000 [EMPTY] [EMPTY] [] BfsInv_init
    (by simp [dict_keys])
  obtain ⟨hmem, hnodup, hscores⟩ := make_states_aux_spec 20000 BfsInv_init hvm
  refine ⟨vm, hvm, hmem, hnodup, ?_, hscores⟩
  have hmap : ((dict_keys vm).map encode).Nodup := hnodup.map encode_injective
  have hset : ((dict_keys vm).map encode).toFinset =
      (Finset.range 19683).filter (fun k => checkCode k = some true) := by
    ext k
    simp only [List.mem_toFinset, List.mem_map, Finset.mem_filter, Finset.mem_range]
    constructor
    · rintro ⟨bb, hbb, rfl⟩
      have hr : Reachable bb := (hmem bb).mp hbb
      have hs : reachSpec bb = true := reachable_spec hr
      have hlt : encode bb < 19683 := encode_lt bb
      refine ⟨hlt, ?_⟩
      rw [checkCode_true_iff (checkCode_all hlt), decode_encode]
      exact hs
    · rintro ⟨hlt, hck⟩
      have hs : reachSpec (decode k) = true :=
        (checkCode_true_iff (checkCode_all hlt)).mp hck
      have hr : Reachable (decode k) :=
        spec_reachable (xCount (decode k) + oCount (decode k)) (decode k) le_rfl hs
      exact ⟨decode k, (hmem (decode k)).mpr hr, encode_decode hlt⟩
  have hcard : ((dict_keys vm).map encode).toFinset.card =
      ((dict_keys vm).map encode).length := List.toFinset_card_of_nodup hmap
  rw [hset, reach_count, List.length_map] at hcard
  omega

/-! ## Effect of one agent signal on alpha and on the key set -/

theorem backup_ok {st st' : AgentState} {d : ℚ} {t : Player} {oc : ℚ}
    (h : backup st d t oc = Except.ok st') :
    st'.alpha = st.alpha * d ∧ dict_keys st'.weights = dict_keys st.weights ∧
      st'.last_move = st.last_move := by
  cases hlm : st.last_move with
  | none =>
    simp only [backup, hlm] at h
    exact Except.noConfusion h
  | some lm =>
    cases hget : dict_get st.weights lm with
    | none =>
      simp only [backup, hlm, hget] at h
      exact Except.noConfusion h
    | some score =>
      simp only [backup, hlm, hget, Except.ok.injEq] at h
      subst h
      exact ⟨rfl, dict_keys_dict_set_of_mem _ (dict_get_mem_keys hget), rfl⟩

theorem rl_player_effect {cfg : Config} {st : AgentState} {a : Action} {rnd : Rand}
    {mv : Option Board} {st' : AgentState}
    (h : rl_player cfg st a rnd = Except.ok (mv, st')) :
    dict_keys st'.weights = dict_keys st.weights ∧
    st'.alpha = st.alpha * cfg.decay ^
      (match a with
       | Action.NEW_GAME => 0
       | Action.END_GAME _ _ => 1
       | Action.MOVE _ _ =>
         if rnd.exploratory then 0 else if st.last_move.isSome then 1 else 0) := by
  cases a with
  | NEW_GAME =>
    simp only [rl_player, Except.ok.injEq, Prod.mk.injEq] at h
    obtain ⟨-, h2⟩ := h
    subst h2
    exact ⟨rfl, by simp⟩
  | END_GAME t oc =>
    simp only [rl_player] at h
    cases hb : backup st cfg.decay t oc with
    | error e =>
      simp only [hb] at h
      exact Except.noConfusion h
    | ok stb =>
      simp only [hb, Except.ok.injEq, Prod.mk.injEq] at h
      obtain ⟨-, h2⟩ := h
      subst h2
      obtain ⟨ha, hk, -⟩ := backup_ok hb
      exact ⟨hk, by rw [ha, pow_one]⟩
  | MOVE board moves =>
    simp only [rl_player] at h
    by_cases hexp : rnd.exploratory = true
    · rw [if_pos hexp] at h
      cases hg : moves.get? rnd.pick with
      | none =>
        simp only [hg] at h
        exact Except.noConfusion h
      | some m =>
        simp only [hg, Except.ok.injEq, Prod.mk.injEq] at h
        obtain ⟨-, h2⟩ := h
        subst h2
        refine ⟨rfl, ?_⟩
        rw [hexp]
        simp
    · have hexp' : rnd.exploratory = false := by
        cases hr : rnd.exploratory
        · rfl
        · exact absurd hr hexp
      rw [if_neg hexp] at h
      cases hpg : pick_greedy st.weights (greedy_turn board) rnd.shuffled none (-1) with
      | error e =>
        simp only [hpg] at h
        exact Except.noConfusion h
      | ok pr =>
        obtain ⟨pmv, ps⟩ := pr
        cases hlm : st.last_move with
        | none =>
          simp only [hpg, hlm, Except.ok.injEq, Prod.mk.injEq] at h
          obtain ⟨h1, h2⟩ := h
          subst h1
          subst h2
          refine ⟨rfl, ?_⟩
          rw [hexp']
          simp
        | some lm0 =>
          cases pmv with
          | none =>
            simp only [hpg, hlm] at h
            exact Except.noConfusion h
          | some mv2 =>
            cases hget : dict_get st.weights mv2 with
            | none =>
              simp only [hpg, hlm, hget] at h
              exact Except.noConfusion h
            | some cur =>
              cases hb : backup st cfg.decay (greedy_turn board)
                  (cur.get (greedy_turn board)) with
              | error e =>
                simp only [hpg, hlm, hget, hb] at h
                exact Except.noConfusion h
              | ok stb =>
                simp only [hpg, hlm, hget, hb, Except.ok.injEq, Prod.mk.injEq] at h
                obtain ⟨h1, h2⟩ := h
                subst h1
                subst h2
                obtain ⟨ha, hk, -⟩ := backup_ok hb
                refine ⟨hk, ?_⟩
                rw [hexp']
                simp [ha]

theorem run_ok_effect (cfg : Config) : ∀ (sig : List (Action × Rand)) (st st' : AgentState),
    run cfg st sig = Except.ok st' →
    dict_keys st'.weights = dict_keys st.weights ∧
      st'.alpha = st.alpha * cfg.decay ^ run_backs cfg st sig := by
  intro sig
  induction sig with
  | nil =>
    intro st st' h
    simp only [run, Except.ok.injEq] at h
    subst h
    exact ⟨rfl, by simp [run_backs]⟩
  | cons ar rest ih =>
    obtain ⟨a, r⟩ := ar
    intro st st' h
    simp only [run] at h
    cases hp : rl_player cfg st a r with
    | error e => rw [hp] at h; simp at h
    | ok pr =>
      obtain ⟨mv, st1⟩ := pr
      rw [hp] at h
      obtain ⟨hk1, ha1⟩ := rl_player_effect hp
      obtain ⟨hk2, ha2⟩ := ih st1 st' h
      constructor
      · rw [hk2, hk1]
      · rw [ha2, ha1]
        simp only [run_backs, hp]
        rw [pow_add]
        ring


/-! ## The ten claims -/

/-- C1: the TD backup applied on END_GAME (and by the backup function that the
non-exploratory MOVE path also calls) updates exactly the entry
weights[last_move][turn], setting it to old + alpha * (target - old), then
multiplies alpha by decay; every other key and the other player's value of the
touched entry are unchanged. -/
theorem td_c1 (cfg : Config) (st : AgentState) (turn : Player) (outcome : ℚ)
    (lm : Board) (score : Score)
    (hlm : st.last_move = some lm) (hget : dict_get st.weights lm = some score) :
    backup st cfg.decay turn outcome = Except.ok
      { st with
        weights := dict_set st.weights lm
          (score.set turn (score.get turn + st.alpha * (outcome - score.get turn))),
        alpha := st.alpha * cfg.decay } ∧
    (∀ rnd : Rand, rl_player cfg st (Action.END_GAME turn outcome) rnd = Except.ok
      (none, { st with
        weights := dict_set st.weights lm
          (score.set turn (score.get turn + st.alpha * (outcome - score.get turn))),
        alpha := st.alpha * cfg.decay })) ∧
    (∀ b : Board, b ≠ lm →
      dict_get (dict_set st.weights lm
        (score.set turn (score.get turn + st.alpha * (outcome - score.get turn)))) b =
      dict_get st.weights b) ∧
    (∀ q : Player, q ≠ turn →
      (score.set turn (score.get turn + st.alpha * (outcome - score.get turn))).get q =
        score.get q) := by
  have hback : backup st cfg.decay turn outcome = Except.ok
      { st with
        weights := dict_set st.weights lm
          (score.set turn (score.get turn + st.alpha * (outcome - score.get turn))),
        alpha := st.alpha * cfg.decay } := by
    simp only [backup, hlm, hget]
  refine ⟨hback, ?_, ?_, ?_⟩
  · intro rnd
    simp only [rl_player, hback]
  · intro b hb
    exact dict_get_dict_set_other _ hb
  · intro q hq
    cases turn <;> cases q <;> first | rfl | exact absurd rfl hq

/-- Witness for C1: one END_GAME(X, 1) backup with alpha = 1/2 on a board
valued (1/2, 1/2) sets its X-value to 3/4 and leaves the O-value alone. -/
theorem td_c1_witness :
    backup ⟨[(EMPTY, ⟨1/2, 1/2⟩)], 1/2, some EMPTY⟩ 1 Player.X 1 =
      Except.ok ⟨[(EMPTY, ⟨3/4, 1/2⟩)], 1/2, some EMPTY⟩ := by
  have h := (td_c1 ⟨0, 1⟩ ⟨[(EMPTY, ⟨1/2, 1/2⟩)], 1/2, some EMPTY⟩ Player.X 1 EMPTY
    ⟨1/2, 1/2⟩ rfl rfl).1
  exact h.trans (congrArg Except.ok (by norm_num [dict_set, Score.set, Score.get]))

/-- C2: a successful make_states run returns a table whose key set is exactly
the boards reachable from the empty board via get_children, every key is a
legal board, no key repeats, and there are 5478 keys. -/
theorem td_c2 : ∃ vm, make_states = some vm ∧
    (∀ b, b ∈ dict_keys vm ↔ Reachable b) ∧
    (∀ b ∈ dict_keys vm, legal b) ∧
    (dict_keys vm).Nodup ∧ (dict_keys vm).length = 5478 := by
  obtain ⟨vm, h1, h2, h3, h4, -⟩ := make_states_spec
  exact ⟨vm, h1, h2, fun b hb => reachable_legal ((h2 b).mp hb), h3, h4⟩

/-- C3: classify_board returns ILLEGAL whenever the piece counts differ by
more than one, and whenever both players have a completed line. -/
theorem td_c3 (b : Board) :
    ((((count_pieces b).1 : Int) - ((count_pieces b).2 : Int)).natAbs > 1 →
      classify_board b = GameState.ILLEGAL) ∧
    (has_win b Player.X = true ∧ has_win b Player.O = true →
      classify_board b = GameState.ILLEGAL) := by
  constructor
  · intro h
    unfold classify_board
    dsimp only
    rw [if_pos h]
  · rintro ⟨hx, ho⟩
    unfold classify_board
    dsimp only
    by_cases habs : (((count_pieces b).1 : Int) - ((count_pieces b).2 : Int)).natAbs > 1
    · rw [if_pos habs]
    · rw [if_neg habs, hx, ho]
      rfl

/-- Witness for C3: a board with two X and no O is ILLEGAL, and a board
with a full X row and a full O row is ILLEGAL. -/
theorem td_c3_witness :
    classify_board ((some Player.X, some Player.X, none),
      (none, none, none), (none, none, none)) = GameState.ILLEGAL ∧
    classify_board ((some Player.X, some Player.X, some Player.X),
      (some Player.O, some Player.O, some Player.O), (none, none, none)) =
      GameState.ILLEGAL :=
  ⟨(td_c3 _).1 (by decide), (td_c3 _).2 (by decide)⟩

/-- C4: every child of b differs from b in exactly one cell, which was empty
in b and now holds the mover's mark, the mover determined by classify_board b;
and the child list is empty on wins, draws and ILLEGAL boards. -/
theorem td_c4 (b : Board) :
    (∀ c ∈ get_children b, ∃ p : Player,
      ((classify_board b = GameState.XTURN ∧ p = Player.X) ∨
       (classify_board b = GameState.OTURN ∧ p = Player.O)) ∧
      ∃ i, i < 3 ∧ ∃ j, j < 3 ∧ cell b i j = none ∧ cell c i j = some p ∧
        ∀ r s, r < 3 → s < 3 → ¬(r = i ∧ s = j) → cell c r s = cell b r s) ∧
    (classify_board b = GameState.XWIN ∨ classify_board b = GameState.OWIN ∨
     classify_board b = GameState.DRAW ∨ classify_board b = GameState.ILLEGAL →
      get_children b = []) := by
  constructor
  · intro c hc
    obtain ⟨p, hcase, i, hi, j, hj, he, rfl⟩ := mem_get_children hc
    exact ⟨p, hcase, i, hi, j, hj, he, cell_move_eq b p i j hi hj,
      fun r s hr hs hne => cell_move_ne b p i j r s hi hj hr hs hne⟩
  · intro h
    apply get_children_eq_nil
    · intro hx
      rcases h with h | h | h | h <;> rw [h] at hx <;> exact GameState.noConfusion hx
    · intro hx
      rcases h with h | h | h | h <;> rw [h] at hx <;> exact GameState.noConfusion hx

/-- Witness for C4: the child of the empty board with X at (0,0) differs from
it in exactly that cell, and a won board has no children. -/
theorem td_c4_witness :
    (∃ p : Player,
      ((classify_board EMPTY = GameState.XTURN ∧ p = Player.X) ∨
       (classify_board EMPTY = GameState.OTURN ∧ p = Player.O)) ∧
      ∃ i, i < 3 ∧ ∃ j, j < 3 ∧ cell EMPTY i j = none ∧
        cell ((some Player.X, none, none), (none, none, none), (none, none, none)) i j =
          some p ∧
        ∀ r s, r < 3 → s < 3 → ¬(r = i ∧ s = j) →
          cell ((some Player.X, none, none), (none, none, none), (none, none, none)) r s =
            cell EMPTY r s) ∧
    get_children ((some Player.X, some Player.X, some Player.X),
      (some Player.O, some Player.O, none), (none, none, none)) = [] := by
  constructor
  · exact (td_c4 EMPTY).1 _ (by decide)
  · exact (td_c4 _).2 (Or.inl (by decide))

/-- Any play from a reachable board with agents that choose members of the
offered move list ends, within the number of empty cells, in XWIN, OWIN or
DRAW. -/
theorem play_total {sx so : Type} (xp : sx → Board → List Board → Board × sx)
    (op : so → Board → List Board → Board × so)
    (hx : ∀ (s : sx) (b : Board) (m : List Board), m ≠ [] → (xp s b m).1 ∈ m)
    (ho : ∀ (s : so) (b : Board) (m : List Board), m ≠ [] → (op s b m).1 ∈ m) :
    ∀ (fuel : Nat) (b : Board) (xs : sx) (os : so), Reachable b →
      9 ≤ fuel + (count_pieces b).1 + (count_pieces b).2 →
      ∃ st, play xp op fuel b xs os = some st ∧
        (st = GameState.XWIN ∨ st = GameState.OWIN ∨ st = GameState.DRAW) := by
  intro fuel
  induction fuel with
  | zero =>
    intro b xs os hr hle
    have hleg := reachable_legal hr
    have h9 : (count_pieces b).1 + (count_pieces b).2 = 9 :=
      le_antisymm (count_pieces_le_nine b) (by omega)
    rcases hcl : classify_board b with _ | _ | _ | _ | _ | _
    · exact absurd hcl (classify_of_legal hleg)
    · refine ⟨GameState.XWIN, ?_, Or.inl rfl⟩
      simp only [play, hcl]
      rw [if_neg (by decide)]
    · refine ⟨GameState.OWIN, ?_, Or.inr (Or.inl rfl)⟩
      simp only [play, hcl]
      rw [if_neg (by decide)]
    · refine ⟨GameState.DRAW, ?_, Or.inr (Or.inr rfl)⟩
      simp only [play, hcl]
      rw [if_neg (by decide)]
    · obtain ⟨-, -, -, h9n, -⟩ := classify_xturn_inv hcl
      exact absurd h9 h9n
    · obtain ⟨-, -, -, h9n, -⟩ := classify_oturn_inv hcl
      exact absurd h9 h9n
  | succ fuel ih =>
    intro b xs os hr hle
    have hleg := reachable_legal hr
    rcases hcl : classify_board b with _ | _ | _ | _ | _ | _
    · exact absurd hcl (classify_of_legal hleg)
    · refine ⟨GameState.XWIN, ?_, Or.inl rfl⟩
      simp only [play, hcl]
      rw [if_neg (by decide), if_neg (by decide)]
    · refine ⟨GameState.OWIN, ?_, Or.inr (Or.inl rfl)⟩
      simp only [play, hcl]
      rw [if_neg (by decide), if_neg (by decide)]
    · refine ⟨GameState.DRAW, ?_, Or.inr (Or.inr rfl)⟩
      simp only [play, hcl]
      rw [if_neg (by decide), if_neg (by decide)]
    · have hne : get_children b ≠ [] := get_children_ne_nil_X hcl
      have hmem := hx xs b (get_children b) hne
      have hrc : Reachable ((xp xs b (get_children b)).1) := Reachable.step hr hmem
      have hcnt := mem_children_count hmem
      obtain ⟨st, hst, hterm⟩ := ih (xp xs b (get_children b)).1
        (xp xs b (get_children b)).2 os hrc (by omega)
      refine ⟨st, ?_, hterm⟩
      simp only [play, hcl]
      simpa using hst
    · have hne : get_children b ≠ [] := get_children_ne_nil_O hcl
      have hmem := ho os b (get_children b) hne
      have hrc : Reachable ((op os b (get_children b)).1) := Reachable.step hr hmem
      have hcnt := mem_children_count hmem
      obtain ⟨st, hst, hterm⟩ := ih (op os b (get_children b)).1 xs
        (op os b (get_children b)).2 hrc (by omega)
      refine ⟨st, ?_, hterm⟩
      simp only [play, hcl]
      simpa using hst

/-- C5: against agents that always return a member of the move list they are
given, play from the empty board ends within 9 moves in XWIN, OWIN or DRAW,
never in ILLEGAL. -/
theorem td_c5 {sx so : Type} (xp : sx → Board → List Board → Board × sx)
    (op : so → Board → List Board → Board × so)
    (hx : ∀ (s : sx) (b : Board) (m : List Board), m ≠ [] → (xp s b m).1 ∈ m)
    (ho : ∀ (s : so) (b : Board) (m : List Board), m ≠ [] → (op s b m).1 ∈ m)
    (xs : sx) (os : so) :
    ∃ st, play xp op 9 EMPTY xs os = some st ∧
      (st = GameState.XWIN ∨ st = GameState.OWIN ∨ st = GameState.DRAW) :=
  play_total xp op hx ho 9 EMPTY xs os Reachable.empty (by decide)

/-- Witness for C5: two take-the-first-move agents finish a game from the
empty board in a terminal non-ILLEGAL state. -/
theorem td_c5_witness :
    ∃ st, play (fun (s : Unit) (b : Board) (m : List Board) => (m.headD b, s))
        (fun (s : Unit) (b : Board) (m : List Board) => (m.headD b, s)) 9 EMPTY () () =
        some st ∧
      (st = GameState.XWIN ∨ st = GameState.OWIN ∨ st = GameState.DRAW) :=
  td_c5 _ _
    (fun s b m hm => by
      cases m with
      | nil => exact absurd rfl hm
      | cons a t => exact List.mem_cons_self _ _)
    (fun s b m hm => by
      cases m with
      | nil => exact absurd rfl hm
      | cons a t => exact List.mem_cons_self _ _)
    () ()

/-- C6: immediately after building, every entry's score is the initial score
of its board's classification: XWIN boards are valued (1, 0), OWIN boards
(0, 1), DRAW boards (0, 0) and to-move boards (1/2, 1/2). -/
theorem td_c6 : ∃ vm, make_states = some vm ∧
    ∀ p ∈ vm,
      (classify_board p.1 = GameState.XWIN → p.2 = ⟨1, 0⟩) ∧
      (classify_board p.1 = GameState.OWIN → p.2 = ⟨0, 1⟩) ∧
      (classify_board p.1 = GameState.DRAW → p.2 = ⟨0, 0⟩) ∧
      ((classify_board p.1 = GameState.XTURN ∨ classify_board p.1 = GameState.OTURN) →
        p.2 = ⟨1/2, 1/2⟩) := by
  obtain ⟨vm, h1, -, -, -, hs⟩ := make_states_spec
  refine ⟨vm, h1, ?_⟩
  intro p hp
  have h := hs p hp
  refine ⟨fun hc => ?_, fun hc => ?_, fun hc => ?_, fun hc => ?_⟩
  · rw [h, hc]
    rfl
  · rw [h, hc]
    rfl
  · rw [h, hc]
    rfl
  · rcases hc with hc | hc <;> rw [h, hc] <;> rfl

/-- C7: alpha is multiplied by decay exactly once per performed backup and
touched by nothing else, so after a successful run it equals the starting
alpha times decay raised to the number of performed backups. -/
theorem td_c7 (cfg : Config) (st st' : AgentState) (sig : List (Action × Rand))
    (h : run cfg st sig = Except.ok st') :
    st'.alpha = st.alpha * cfg.decay ^ run_backs cfg st sig :=
  (run_ok_effect cfg sig st st' h).2

/-- Witness for C7: after one END_GAME backup with decay 1/2, alpha falls
from 1 to 1 * (1/2)^1. -/
theorem td_c7_witness :
    run ⟨0, 1/2⟩ ⟨[(EMPTY, ⟨1/2, 1/2⟩)], 1, some EMPTY⟩
        [(Action.END_GAME Player.X 1, ⟨false, 0, []⟩)] =
      Except.ok ⟨[(EMPTY, ⟨1, 1/2⟩)], 1/2, some EMPTY⟩ ∧
    (⟨[(EMPTY, ⟨1, 1/2⟩)], 1/2, some EMPTY⟩ : AgentState).alpha =
      (⟨[(EMPTY, ⟨1/2, 1/2⟩)], 1, some EMPTY⟩ : AgentState).alpha *
        ((⟨0, 1/2⟩ : Config)).decay ^ run_backs ⟨0, 1/2⟩
          ⟨[(EMPTY, ⟨1/2, 1/2⟩)], 1, some EMPTY⟩
          [(Action.END_GAME Player.X 1, ⟨false, 0, []⟩)] :=
  ⟨by norm_num [run, rl_player, backup, dict_get, dict_set, Score.get, Score.set],
   td_c7 ⟨0, 1/2⟩ _ _ _
     (by norm_num [run, rl_player, backup, dict_get, dict_set, Score.get, Score.set])⟩

/-- C8: on MOVE, an exploratory draw performs no backup and cannot raise,
and a non-exploratory move with no recorded last move performs no backup
and cannot raise; in both cases the chosen move is recorded as the new
last move and returned. -/
theorem td_c8 (cfg : Config) (st : AgentState) (board : Board) (moves : List Board)
    (rnd : Rand) :
    (∀ mv : Board, rnd.exploratory = true → moves.get? rnd.pick = some mv →
      rl_player cfg st (Action.MOVE board moves) rnd =
        Except.ok (some mv, { st with last_move := some mv })) ∧
    (∀ (mv : Option Board) (s : ℚ), rnd.exploratory = false → st.last_move = none →
      pick_greedy st.weights (greedy_turn board) rnd.shuffled none (-1) =
        Except.ok (mv, s) →
      rl_player cfg st (Action.MOVE board moves) rnd =
        Except.ok (mv, { st with last_move := mv })) := by
  constructor
  · intro mv hexp hg
    simp only [rl_player, if_pos hexp, hg]
  · intro mv s hexp hlm hpg
    have hexp' : ¬ rnd.exploratory = true := by
      rw [hexp]
      exact Bool.false_ne_true
    simp only [rl_player, if_neg hexp', hpg, hlm]

/-- Witness for C8: an exploratory pick and a first non-exploratory pick
both succeed, record the move and leave the weights and alpha alone. -/
theorem td_c8_witness :
    rl_player ⟨0, 1⟩ ⟨[(EMPTY, ⟨1/2, 1/2⟩)], 1/2, none⟩ (Action.MOVE EMPTY [EMPTY])
        ⟨true, 0, []⟩ =
      Except.ok (some EMPTY, ⟨[(EMPTY, ⟨1/2, 1/2⟩)], 1/2, some EMPTY⟩) ∧
    rl_player ⟨0, 1⟩ ⟨[(EMPTY, ⟨1/2, 1/2⟩)], 1/2, none⟩ (Action.MOVE EMPTY [EMPTY])
        ⟨false, 0, [EMPTY]⟩ =
      Except.ok (some EMPTY, ⟨[(EMPTY, ⟨1/2, 1/2⟩)], 1/2, some EMPTY⟩) := by
  constructor
  · exact (td_c8 ⟨0, 1⟩ ⟨[(EMPTY, ⟨1/2, 1/2⟩)], 1/2, none⟩ EMPTY [EMPTY]
      ⟨true, 0, []⟩).1 EMPTY rfl rfl
  · exact (td_c8 ⟨0, 1⟩ ⟨[(EMPTY, ⟨1/2, 1/2⟩)], 1/2, none⟩ EMPTY [EMPTY]
      ⟨false, 0, [EMPTY]⟩).2 (some EMPTY) (1/2) rfl rfl (by
        have hg : greedy_turn EMPTY = Player.X := by decide
        norm_num [pick_greedy, hg, dict_get, Score.get])

/-- C9: a signal the agent answers without raising never adds or removes a
table key: the key set after any successful signal, and after any successful
run of signals, is the key set before. -/
theorem td_c9 (cfg : Config) :
    (∀ (st : AgentState) (a : Action) (rnd : Rand) (mv : Option Board)
      (st' : AgentState), rl_player cfg st a rnd = Except.ok (mv, st') →
      dict_keys st'.weights = dict_keys st.weights) ∧
    (∀ (sig : List (Action × Rand)) (st st' : AgentState),
      run cfg st sig = Except.ok st' → dict_keys st'.weights = dict_keys st.weights) :=
  ⟨fun st a rnd mv st' h => (rl_player_effect h).1,
   fun sig st st' h => (run_ok_effect cfg sig st st' h).1⟩

/-- Witness for C9: a mutating END_GAME backup leaves the key set of a
one-entry table unchanged. -/
theorem td_c9_witness :
    dict_keys (⟨[(EMPTY, ⟨1, 1/2⟩)], 1/2, some EMPTY⟩ : AgentState).weights =
      dict_keys (⟨[(EMPTY, ⟨1/2, 1/2⟩)], 1, some EMPTY⟩ : AgentState).weights :=
  (td_c9 ⟨0, 1/2⟩).2 [(Action.END_GAME Player.X 1, ⟨false, 0, []⟩)]
    ⟨[(EMPTY, ⟨1/2, 1/2⟩)], 1, some EMPTY⟩ ⟨[(EMPTY, ⟨1, 1/2⟩)], 1/2, some EMPTY⟩
    (by norm_num [run, rl_player, backup, dict_get, dict_set, Score.get, Score.set])

/-- C10: END_GAME with no recorded last move attempts the backup anyway: the
lookup raises KeyError (both in backup and through the END_GAME dispatch)
and no new agent state - hence no table modification - is produced. -/
theorem td_c10 (cfg : Config) (st : AgentState) (turn : Player) (outcome : ℚ)
    (rnd : Rand) (h : st.last_move = none) :
    rl_player cfg st (Action.END_GAME turn outcome) rnd = Except.error "KeyError" ∧
    backup st cfg.decay turn outcome = Except.error "KeyError" := by
  have hb : backup st cfg.decay turn outcome = Except.error "KeyError" := by
    simp only [backup, h]
  exact ⟨by simp only [rl_player, hb], hb⟩

/-- Witness for C10: a fresh agent state (last_move = none) raises KeyError
on END_GAME. -/
theorem td_c10_witness :
    rl_player ⟨0, 1⟩ ⟨[(EMPTY, ⟨1/2, 1/2⟩)], 1/2, none⟩ (Action.END_GAME Player.X 1)
        ⟨false, 0, []⟩ = Except.error "KeyError" :=
  (td_c10 ⟨0, 1⟩ ⟨[(EMPTY, ⟨1/2, 1/2⟩)], 1/2, none⟩ Player.X 1 ⟨false, 0, []⟩ rfl).1

end TicTacToe
